import Mathlib

/-!
# MITIE `ner_conll` tool: span/label bookkeeping

A shallow embedding of `tools/ner_conll/src/main.cpp`.

* `unsigned long` values are natural numbers; where the source subtracts or adds
  them the embedding reduces modulo `2^64`.
* `std::vector` is `List`; an out-of-range `operator[]` (undefined behaviour in
  the source) makes the embedded function return `none`.
* `std::set<std::pair<unsigned long, unsigned long>>` is a strictly increasing
  list under the lexicographic order of `std::pair`.
* The header `conll_parser.h` is not part of the sources at hand: the numeric
  label constants it declares are carried as a parameter (`NerLabels`).
-/

namespace NerConll

/-! ## Data model -/

/-- A span: the pair `(begin, end)` of a `std::pair<unsigned long, unsigned long>`. -/
abbrev Span := Nat × Nat

/-- The label constants `PER`, `LOC`, `ORG`, `MISC` and `NOT_ENTITY` used by
`main.cpp`.  Their declaration (`conll_parser.h`) is not among the sources, so
their numeric values are a parameter of every definition that uses them. -/
structure NerLabels where
  PER : Nat
  LOC : Nat
  ORG : Nat
  MISC : Nat
  NOT_ENTITY : Nat
deriving DecidableEq, Repr

/-! ## `get_label` (main.cpp, lines 212-232) -/

/-- The `for` loop of `get_label`, started at index `i`; `rest` holds
`chunks[i], chunks[i+1], ...`.  Returns `chunk_labels[i]` at the first `i` with
`range == chunks[i]`, and `NOT_ENTITY` when the loop runs off the end. -/
def get_label_loop (L : NerLabels) (chunk_labels : List Nat) (range : Span) :
    List Span → Nat → Option Nat
  | [], _ => some L.NOT_ENTITY
  | c :: rest, i =>
    if range = c then chunk_labels[i]?
    else get_label_loop L chunk_labels range rest (i + 1)

/-- The function `get_label(chunks, chunk_labels, range)`. -/
def get_label (L : NerLabels) (chunks : List Span) (chunk_labels : List Nat)
    (range : Span) : Option Nat :=
  get_label_loop L chunk_labels range chunks 0

/-! ## `train_id`, the per-sentence body (main.cpp, lines 253-273) -/

/-- The comparison `operator<` of `std::pair<unsigned long, unsigned long>`. -/
def pair_lt (a b : Span) : Bool :=
  decide (a.1 < b.1) || (!decide (b.1 < a.1) && decide (a.2 < b.2))

/-- Insertion of one element in a `std::set` of pairs, kept as an increasing list:
an element equivalent to one already present is not inserted. -/
def set_insert (x : Span) : List Span → List Span
  | [] => [x]
  | y :: ys =>
    if pair_lt x y then x :: y :: ys
    else if pair_lt y x then y :: set_insert x ys
    else y :: ys

/-- The range insertion `ranges.insert(first, last)` of `std::set`. -/
def set_insert_range (s : List Span) (xs : List Span) : List Span :=
  xs.foldl (fun acc x => set_insert x acc) s

/-- The set `ranges` of `train_id` after both insertions (lines 256-263):
the gold chunks first, then the chunks `temp` found by the segmenter. -/
def train_id_ranges (chunks temp : List Span) : List Span :=
  set_insert_range (set_insert_range [] chunks) temp

/-- The loop over `ranges` of `train_id` (lines 268-272): each span appends one
feature vector to `samples` and one label to `labels`. -/
def train_id_push {α : Type} (L : NerLabels) (extract : Span → α)
    (chunks : List Span) (chunk_labels : List Nat) :
    List Span → List α × List Nat → Option (List α × List Nat)
  | [], st => some st
  | r :: rest, st =>
    match get_label L chunks chunk_labels r with
    | none => none
    | some l =>
      train_id_push L extract chunks chunk_labels rest (st.1 ++ [extract r], st.2 ++ [l])

/-- One iteration of the sentence loop of `train_id`: `chunks` and `chunk_labels`
are `chunks[i]` and `chunk_labels[i]`, `temp` is the output `segmenter(sent)` and
`extract` is `extract_ner_chunk_features(sentences[i], sent, ·)`; the state is the
pair `(samples, labels)`. -/
def train_id_sentence {α : Type} (L : NerLabels) (extract : Span → α)
    (chunks : List Span) (chunk_labels : List Nat) (temp : List Span)
    (st : List α × List Nat) : Option (List α × List Nat) :=
  train_id_push L extract chunks chunk_labels (train_id_ranges chunks temp) st

/-! ## The C interface (main.cpp, lines 383-782) -/

/-- Arithmetic on `unsigned long` is modulo `2^64`. -/
def ULONG_SIZE : Nat := 2 ^ 64

/-- Subtraction `a - b` on `unsigned long` values. -/
def ulong_sub (a b : Nat) : Nat := (a + ULONG_SIZE - b) % ULONG_SIZE

/-- Addition `a + b` on `unsigned long` values. -/
def ulong_add (a b : Nat) : Nat := (a + b) % ULONG_SIZE

/-- The enumerator `MITIE_NOT_A_MITIE_OBJECT = 0` of `mitie_object_type`. -/
def MITIE_NOT_A_MITIE_OBJECT : Nat := 0

/-- The enumerator `MITIE_NAMED_ENTITY_EXTRACTOR = 1234` of `mitie_object_type`. -/
def MITIE_NAMED_ENTITY_EXTRACTOR : Nat := 1234

/-- The enumerator `MITIE_NAMED_ENTITY_DETECTIONS`, which follows `1234`. -/
def MITIE_NAMED_ENTITY_DETECTIONS : Nat := 1235

/-- The class `named_entity_extractor` as `main.cpp` uses it: `run words` is the
call `ner(words, ranges, predicted_labels)` and yields the two output vectors, or
`none` when the call throws; `tag_name_strings` is `get_tag_name_strings()`.
The class itself is defined outside `main.cpp`. -/
structure named_entity_extractor where
  tag_name_strings : List String
  run : List String → Option (List Span × List Nat)

/-- The struct `mitie_named_entity_detections_impl`. -/
structure mitie_named_entity_detections_impl where
  ranges : List Span
  predicted_labels : List Nat
  tags : List String

/-- The struct `mitie_named_entity_extractor`: a type tag and the implementation. -/
structure mitie_named_entity_extractor where
  type : Nat
  impl : named_entity_extractor

/-- The struct `mitie_named_entity_detections`: a type tag and the implementation. -/
structure mitie_named_entity_detections where
  type : Nat
  impl : mitie_named_entity_detections_impl

/-- What a call of the interface yields: undefined behaviour (an `operator[]`
out of range), the `NULL` pointer, or a pointer to an object. -/
inductive Ret (α : Type) where
  | undefined : Ret α
  | null : Ret α
  | object : α → Ret α

/-- The tokenizing loop of `mitie_extract_entities` (lines 697-701): `toks` is the
sequence of `(word, pos)` that `tok(word, pos)` delivers; the result is the pair
`(words, word_pos)`. -/
def tokenize_loop : List (String × Nat) → List String × List Nat → List String × List Nat
  | [], acc => acc
  | (word, pos) :: rest, acc => tokenize_loop rest (acc.1 ++ [word], acc.2 ++ [pos])

/-- The body of the remapping loop of `mitie_extract_entities` (lines 709-717) for
one range. -/
def remap_range (words : List String) (word_pos : List Nat) (r : Span) : Option Span :=
  match word_pos[r.1]?, word_pos[ulong_sub r.2 1]?, words[ulong_sub r.2 1]? with
  | some b, some p, some w => some (b, ulong_add p w.length)
  | _, _, _ => none

/-- The remapping loop of `mitie_extract_entities` (lines 707-718): every range
is replaced in turn. -/
def remap_ranges (words : List String) (word_pos : List Nat) :
    List Span → Option (List Span)
  | [] => some []
  | r :: rest =>
    match remap_range words word_pos r with
    | none => none
    | some r2 =>
      match remap_ranges words word_pos rest with
      | none => none
      | some rest2 => some (r2 :: rest2)

/-- The function `mitie_extract_entities(ner, text)`; `tokenizer` is the
`unigram_tokenizer`, which delivers the `(word, pos)` pairs of a text.  An
exception of the extractor call is caught and gives `NULL`; the two `new`
expressions are taken to succeed. -/
def mitie_extract_entities (tokenizer : String → List (String × Nat))
    (ner : mitie_named_entity_extractor) (text : String) :
    Ret mitie_named_entity_detections :=
  let wp := tokenize_loop (tokenizer text) ([], [])
  match ner.impl.run wp.1 with
  | none => Ret.null
  | some (ranges, predicted_labels) =>
    match remap_ranges wp.1 wp.2 ranges with
    | none => Ret.undefined
    | some ranges2 =>
      Ret.object
        { type := MITIE_NAMED_ENTITY_DETECTIONS
          impl :=
            { ranges := ranges2
              predicted_labels := predicted_labels
              tags := ner.impl.tag_name_strings } }

/-- The function `mitie_ner_get_num_detections(dets)`. -/
def mitie_ner_get_num_detections (dets : mitie_named_entity_detections) : Nat :=
  dets.impl.ranges.length

/-- The function `mitie_ner_get_detection_position(dets, idx)`. -/
def mitie_ner_get_detection_position (dets : mitie_named_entity_detections) (idx : Nat) :
    Option Nat :=
  match dets.impl.ranges[idx]? with
  | none => none
  | some r => some r.1

/-- The function `mitie_ner_get_detection_length(dets, idx)`. -/
def mitie_ner_get_detection_length (dets : mitie_named_entity_detections) (idx : Nat) :
    Option Nat :=
  match dets.impl.ranges[idx]? with
  | none => none
  | some r => some (ulong_sub r.2 r.1)

/-- The function `mitie_ner_get_detection_tag(dets, idx)`. -/
def mitie_ner_get_detection_tag (dets : mitie_named_entity_detections) (idx : Nat) :
    Option Nat :=
  dets.impl.predicted_labels[idx]?

/-- The function `mitie_ner_get_detection_tagstr(dets, idx)`. -/
def mitie_ner_get_detection_tagstr (dets : mitie_named_entity_detections) (idx : Nat) :
    Option String :=
  match dets.impl.predicted_labels[idx]? with
  | none => none
  | some tag => dets.impl.tags[tag]?

/-- The function `mitie_get_num_possible_ner_tags(ner)`. -/
def mitie_get_num_possible_ner_tags (ner : mitie_named_entity_extractor) : Nat :=
  ner.impl.tag_name_strings.length

/-- The function `mitie_get_named_entity_tagstr(ner, idx)`. -/
def mitie_get_named_entity_tagstr (ner : mitie_named_entity_extractor) (idx : Nat) :
    Option String :=
  ner.impl.tag_name_strings[idx]?

/-- Modelled from the spec: the output contract of the extractor call
`ner(words, ranges, predicted_labels)`, whose code (`named_entity_extractor`) is
not among the sources.  The spans come from the chunker, which "proposes a set of
non-overlapping candidate spans per sentence", each a range `[begin, end)` with
`begin < end`, and the detection order "falls out naturally from span order": the
spans lie within the `n` tokens and each ends no later than the next begins. -/
def extractor_output_contract (n : Nat) (ranges : List Span) : Prop :=
  (∀ r ∈ ranges, r.1 < r.2 ∧ r.2 ≤ n) ∧ ranges.Pairwise (fun a b => a.2 ≤ b.1)

/-- Modelled from the spec: the contract of the tokenizer (`unigram_tokenizer`,
not among the sources), "raw text → ordered sequence of `(word, char_offset)`":
every word is a non-empty piece of the text starting at its offset, and the words
follow one another in the text without overlap. -/
def tokenizer_contract (text : String) (toks : List (String × Nat)) : Prop :=
  (∀ t ∈ toks, 0 < t.1.length ∧ t.2 + t.1.length ≤ text.length) ∧
  toks.Pairwise (fun a b => a.2 + a.1.length ≤ b.2)

/-! ## `mitie_free` and `mitie_load_named_entity_extractor` (lines 574-652) -/

/-- The memory that `mitie_free` looks at, by address: `some t` where a live
object is stored whose first word, read as a `mitie_object_type`, is `t` (any
value, the object need not be a MITIE handle); `none` where no live object is
stored.  What freed storage holds is indeterminate, and a read of it is undefined
behaviour. -/
structure Memory where
  object_at : Nat → Option Nat

/-- How a call of `mitie_free` ends: it returns, leaving a memory; it reaches the
`default` branch, which prints an error and calls `abort()`; or its behaviour is
undefined because it reads storage that holds no live object. -/
inductive FreeResult where
  | returned : Memory → FreeResult
  | aborted : FreeResult
  | undefined : FreeResult

/-- The assignment `obj->type = t` (lines 588 and 597) on the live object at
address `object`. -/
def set_type (m : Memory) (object t : Nat) : Memory :=
  { object_at := fun p => if p = object then (m.object_at p).map (fun _ => t)
      else m.object_at p }

/-- The statements `delete obj->impl; delete obj;` (lines 589-590 and 598-599):
afterwards no live object is stored at address `object`.  Only the handle objects
are tracked, not the implementation objects they point to. -/
def delete_object (m : Memory) (object : Nat) : Memory :=
  { object_at := fun p => if p = object then none else m.object_at p }

/-- The statements `obj->type = MITIE_NOT_A_MITIE_OBJECT; delete obj->impl; delete obj;`
shared by the two `case` branches of `mitie_free`. -/
def release (m : Memory) (object : Nat) : Memory :=
  delete_object (set_type m object MITIE_NOT_A_MITIE_OBJECT) object

/-- A `new` expression that places an object with type word `t` at address `p`:
the allocator may hand out an address that was freed before. -/
def allocate (m : Memory) (p t : Nat) : Memory :=
  { object_at := fun q => if q = p then some t else m.object_at q }

/-- The function `mitie_free(object)`; the pointer `object` is an address, `0`
being the null pointer.  The `switch` of line 581 reads the first word of the
object, which is defined only while an object is live at that address. -/
def mitie_free (m : Memory) (object : Nat) : FreeResult :=
  if object = 0 then FreeResult.returned m
  else
    match m.object_at object with
    | none => FreeResult.undefined
    | some t =>
      if t = MITIE_NAMED_ENTITY_EXTRACTOR then FreeResult.returned (release m object)
      else if t = MITIE_NAMED_ENTITY_DETECTIONS then FreeResult.returned (release m object)
      else FreeResult.aborted

/-- A memory with one live object, an extractor handle at address `8`. -/
def one_extractor : Memory :=
  { object_at := fun p => if p = 8 then some MITIE_NAMED_ENTITY_EXTRACTOR else none }

/-- What a C++ `throw` carries, as far as the handlers of
`mitie_load_named_entity_extractor` tell apart: a `std::exception` (with its
`what()`), or anything else. -/
inductive Thrown where
  | std_exception : String → Thrown
  | other : Thrown

/-- The environment of `mitie_load_named_entity_extractor`: `open_file filename` is
the content of the file, or `none` when `ifstream fin(filename)` fails to open;
`deserialize` reads a `named_entity_extractor` from the content or throws;
`new_obj` and `new_impl` are the two `new` expressions, which may throw. -/
structure LoadEnv where
  open_file : String → Option (List Nat)
  deserialize : List Nat → Except Thrown named_entity_extractor
  new_obj : Except Thrown Unit
  new_impl : Except Thrown Unit

/-- The `try` block of `mitie_load_named_entity_extractor` (lines 622-635): the
result is the returned pointer, or the exception that leaves the block. -/
def load_try_block (env : LoadEnv) (filename : String) :
    Except Thrown (Option mitie_named_entity_extractor) :=
  match env.open_file filename with
  | none => Except.ok none
  | some content =>
    match env.new_obj with
    | Except.error e => Except.error e
    | Except.ok _ =>
      match env.new_impl with
      | Except.error e => Except.error e
      | Except.ok _ =>
        match env.deserialize content with
        | Except.error e => Except.error e
        | Except.ok impl =>
          Except.ok (some { type := MITIE_NAMED_ENTITY_EXTRACTOR, impl := impl })

/-- The function `mitie_load_named_entity_extractor(filename)`: the `try` block
with its two handlers, `catch(std::exception&)` and `catch(...)`, both of which
return `NULL`.  The result is `Except.error` only if an exception leaves the
function. -/
def mitie_load_named_entity_extractor (env : LoadEnv) (filename : String) :
    Except Thrown (Option mitie_named_entity_extractor) :=
  match load_try_block env filename with
  | Except.ok r => Except.ok r
  | Except.error (Thrown.std_exception _) => Except.ok none
  | Except.error Thrown.other => Except.ok none

/-! ## `tag_conll_file`, the conversion of spans to per-token tags (lines 882-914) -/

/-- The enumeration `BIO_label` of the absent header `conll_parser.h`, with the
nine enumerators that `main.cpp` names. -/
inductive BIO_label where
  | B_PER | I_PER | B_ORG | I_ORG | B_LOC | I_LOC | B_MISC | I_MISC | O
deriving DecidableEq, Repr

/-- The assignment `labels[i][k] = v`; an index out of range is undefined
behaviour. -/
def store (labels : List BIO_label) (k : Nat) (v : BIO_label) : Option (List BIO_label) :=
  if k < labels.length then some (labels.set k v) else none

/-- The `if`/`else if` chain of lines 892-899, which stores a `B_` tag. -/
def store_B (L : NerLabels) (pj : Nat) (labels : List BIO_label) (k : Nat) :
    Option (List BIO_label) :=
  if pj = L.PER then store labels k BIO_label.B_PER
  else if pj = L.ORG then store labels k BIO_label.B_ORG
  else if pj = L.LOC then store labels k BIO_label.B_LOC
  else if pj = L.MISC then store labels k BIO_label.B_MISC
  else some labels

/-- The `if`/`else if` chain of lines 903-910, which stores an `I_` tag. -/
def store_I (L : NerLabels) (pj : Nat) (labels : List BIO_label) (k : Nat) :
    Option (List BIO_label) :=
  if pj = L.PER then store labels k BIO_label.I_PER
  else if pj = L.ORG then store labels k BIO_label.I_ORG
  else if pj = L.LOC then store labels k BIO_label.I_LOC
  else if pj = L.MISC then store labels k BIO_label.I_MISC
  else some labels

/-- The condition of line 890,
`j > 0 && ranges[j].first == ranges[j-1].second && predicted_labels[j] == predicted_labels[j-1]`,
evaluated left to right; `rj` and `pj` are `ranges[j]` and `predicted_labels[j]`. -/
def continues_previous (ranges : List Span) (predicted_labels : List Nat)
    (j : Nat) (rj : Span) (pj : Nat) : Option Bool :=
  if 0 < j then
    match ranges[j - 1]? with
    | none => none
    | some rp =>
      if rj.1 = rp.2 then
        match predicted_labels[j - 1]? with
        | none => none
        | some pp => some (decide (pj = pp))
      else some false
  else some false

/-- The body of the loop over `k` (lines 890-911) for span `j` and token `k`. -/
def tag_token (L : NerLabels) (ranges : List Span) (predicted_labels : List Nat)
    (j k : Nat) (labels : List BIO_label) : Option (List BIO_label) :=
  match ranges[j]?, predicted_labels[j]? with
  | some rj, some pj =>
    match continues_previous ranges predicted_labels j rj pj with
    | none => none
    | some true => store_B L pj labels k
    | some false => store_I L pj labels k
  | _, _ => none

/-- The loop `for (k = ranges[j].first; k < ranges[j].second; ++k)` of line 888:
`count` iterations remain and the next token is `k`. -/
def tag_span (L : NerLabels) (ranges : List Span) (predicted_labels : List Nat) (j : Nat) :
    Nat → Nat → List BIO_label → Option (List BIO_label)
  | 0, _, labels => some labels
  | count + 1, k, labels =>
    match tag_token L ranges predicted_labels j k labels with
    | none => none
    | some labels2 => tag_span L ranges predicted_labels j count (k + 1) labels2

/-- The loop `for (j = 0; j < ranges.size(); ++j)` of line 886: `count` spans
remain and the next span is `j`. -/
def tag_spans (L : NerLabels) (ranges : List Span) (predicted_labels : List Nat) :
    Nat → Nat → List BIO_label → Option (List BIO_label)
  | 0, _, labels => some labels
  | count + 1, j, labels =>
    match ranges[j]? with
    | none => none
    | some rj =>
      match tag_span L ranges predicted_labels j (rj.2 - rj.1) rj.1 labels with
      | none => none
      | some labels2 => tag_spans L ranges predicted_labels count (j + 1) labels2

/-- The body of the sentence loop of `tag_conll_file` after the extractor call
(lines 885-913): `labels` is `labels[i]` as read from the file, `ranges` and
`predicted_labels` are the output of `ner(tokens[i], ranges, predicted_labels)`.
All tags are first reset to `O`, then the spans are visited in order. -/
def tag_sentence (L : NerLabels) (ranges : List Span) (predicted_labels : List Nat)
    (labels : List BIO_label) : Option (List BIO_label) :=
  tag_spans L ranges predicted_labels ranges.length 0
    (List.replicate labels.length BIO_label.O)

/-- The `B_` tag that the chain of lines 892-899 stores for the predicted label
`pj`; `none` when `pj` is none of `PER`, `ORG`, `LOC`, `MISC` and nothing is stored. -/
def B_tag (L : NerLabels) (pj : Nat) : Option BIO_label :=
  if pj = L.PER then some BIO_label.B_PER
  else if pj = L.ORG then some BIO_label.B_ORG
  else if pj = L.LOC then some BIO_label.B_LOC
  else if pj = L.MISC then some BIO_label.B_MISC
  else none

/-- The `I_` tag that the chain of lines 903-910 stores for the predicted label
`pj`; `none` when `pj` is none of `PER`, `ORG`, `LOC`, `MISC` and nothing is stored. -/
def I_tag (L : NerLabels) (pj : Nat) : Option BIO_label :=
  if pj = L.PER then some BIO_label.I_PER
  else if pj = L.ORG then some BIO_label.I_ORG
  else if pj = L.LOC then some BIO_label.I_LOC
  else if pj = L.MISC then some BIO_label.I_MISC
  else none

/-- Span `j` continues span `j-1`: `j > 0`, span `j` begins where span `j-1` ends
and both carry the same predicted label (the condition of line 890). -/
def is_continuation (ranges : List Span) (predicted_labels : List Nat) (j : Nat) : Bool :=
  match ranges[j]?, ranges[j - 1]?, predicted_labels[j]?, predicted_labels[j - 1]? with
  | some rj, some rp, some pj, some pp =>
    decide (0 < j) && decide (rj.1 = rp.2) && decide (pj = pp)
  | _, _, _, _ => false

/-- The tag that the loop over `k` stores on every token of span `j`, if any. -/
def span_tag (L : NerLabels) (ranges : List Span) (predicted_labels : List Nat)
    (j : Nat) : Option BIO_label :=
  match predicted_labels[j]? with
  | none => none
  | some pj =>
    if is_continuation ranges predicted_labels j then B_tag L pj else I_tag L pj

/-- Token `k` lies in span `j`. -/
def covers (ranges : List Span) (j k : Nat) : Prop :=
  ∃ r : Span, ranges[j]? = some r ∧ r.1 ≤ k ∧ k < r.2

/-! ## Reading tags back into spans -/

/-- The label constant that a tag names; `none` for `O`. -/
def tag_label (L : NerLabels) : BIO_label → Option Nat
  | BIO_label.B_PER => some L.PER
  | BIO_label.I_PER => some L.PER
  | BIO_label.B_ORG => some L.ORG
  | BIO_label.I_ORG => some L.ORG
  | BIO_label.B_LOC => some L.LOC
  | BIO_label.I_LOC => some L.LOC
  | BIO_label.B_MISC => some L.MISC
  | BIO_label.I_MISC => some L.MISC
  | BIO_label.O => none

/-- Whether a tag is one of the four `B_` tags. -/
def is_B : BIO_label → Bool
  | BIO_label.B_PER => true
  | BIO_label.B_ORG => true
  | BIO_label.B_LOC => true
  | BIO_label.B_MISC => true
  | _ => false

/-- The `I_` tag of the same entity type as a tag (`O` for `O`). -/
def inside_form : BIO_label → BIO_label
  | BIO_label.B_PER => BIO_label.I_PER
  | BIO_label.B_ORG => BIO_label.I_ORG
  | BIO_label.B_LOC => BIO_label.I_LOC
  | BIO_label.B_MISC => BIO_label.I_MISC
  | t => t

/-- The span that ends before token `pos` when `cur = some (start, t)` is open:
`[start, pos)` with the label that the tag `t` names. -/
def close_span (L : NerLabels) (cur : Option (Nat × BIO_label)) (pos : Nat) :
    List (Span × Nat) :=
  match cur with
  | none => []
  | some (start, t) =>
    match tag_label L t with
    | none => []
    | some l => [((start, pos), l)]

/-- The reading of tags that the spec words for the round trip: "each `B_L`
followed by its run of `I_L` tokens is one span of label `L`".  The tokens are
scanned from position `pos`; `cur` is the span opened by the last `B_` tag, with
the `I_` tag that continues it.  An `I_` tag that continues no open span belongs to
no span. -/
def read_spans_B_then_I (L : NerLabels) :
    List BIO_label → Nat → Option (Nat × BIO_label) → List (Span × Nat)
  | [], pos, cur => close_span L cur pos
  | t :: ts, pos, cur =>
    if t = BIO_label.O then
      close_span L cur pos ++ read_spans_B_then_I L ts (pos + 1) none
    else if is_B t then
      close_span L cur pos ++ read_spans_B_then_I L ts (pos + 1) (some (pos, inside_form t))
    else if cur.map Prod.snd = some t then
      read_spans_B_then_I L ts (pos + 1) cur
    else
      close_span L cur pos ++ read_spans_B_then_I L ts (pos + 1) none

/-- The reading of tags under the convention that `tag_conll_file` writes: a
maximal run of `I_L` tokens is one span of label `L`, and a `B_L` token begins a
new span (it is used where a span follows another one of the same label).  The
scan differs from `read_spans_B_then_I` only in that an `I_` tag that continues no
open span opens one. -/
def read_spans_I_run (L : NerLabels) :
    List BIO_label → Nat → Option (Nat × BIO_label) → List (Span × Nat)
  | [], pos, cur => close_span L cur pos
  | t :: ts, pos, cur =>
    if t = BIO_label.O then
      close_span L cur pos ++ read_spans_I_run L ts (pos + 1) none
    else if is_B t then
      close_span L cur pos ++ read_spans_I_run L ts (pos + 1) (some (pos, inside_form t))
    else if cur.map Prod.snd = some t then
      read_spans_I_run L ts (pos + 1) cur
    else
      close_span L cur pos ++ read_spans_I_run L ts (pos + 1) (some (pos, t))

/-- The tag sequence, from token `p` up to token `n`, of labelled spans listed in
increasing order: `O` up to the next span, `I_L` on its tokens, and so on. -/
def render (L : NerLabels) : List (Span × Nat) → Nat → Nat → List BIO_label
  | [], p, n => List.replicate (n - p) BIO_label.O
  | (r, l) :: rest, p, n =>
    List.replicate (r.1 - p) BIO_label.O
      ++ List.replicate (r.2 - r.1) ((I_tag L l).getD BIO_label.O)
      ++ render L rest r.2 n

/-! ## The extractor call, from the spec -/

/-- Modelled from the spec: the call `ner(words, ranges, predicted_labels)` of
`named_entity_extractor`, whose code is not among the sources.  Steps 3 to 5 of
the extractor facade: the chunker proposes candidate spans, the classifier labels
each candidate span on its own, and "any span whose predicted label is
`NOT_ENTITY`" is dropped, "it produces no detection".  The call returns the
retained spans and, in parallel, their predicted labels. -/
def extractor_run (L : NerLabels) (chunker : List String → List Span)
    (classifier : List String → Span → Nat) (words : List String) :
    Option (List Span × List Nat) :=
  some (((chunker words).filter (fun c => decide (classifier words c ≠ L.NOT_ENTITY))),
    ((chunker words).filter (fun c => decide (classifier words c ≠ L.NOT_ENTITY))).map
      (classifier words))

/-- Modelled from the spec: a label is "one of a fixed, closed enumeration of
entity types plus a distinguished `NOT_ENTITY` sentinel", and the "parallel ordered
sequence of display strings maps index → name": every label the classifier
predicts for a candidate span is an index of the tag-name sequence or the
sentinel. -/
def closed_label_set (L : NerLabels) (tags : List String) (chunker : List String → List Span)
    (classifier : List String → Span → Nat) (words : List String) : Prop :=
  ∀ c ∈ chunker words, classifier words c < tags.length ∨ classifier words c = L.NOT_ENTITY

/-! ## `test_id` (main.cpp, lines 320-379) -/

/-- One sentence of the data that `parse_conll_data` delivers: the entries
`sentences[i]`, `chunks[i]` and `chunk_labels[i]` of its three parallel vectors. -/
structure conll_sentence where
  words : List String
  chunks : List Span
  chunk_labels : List Nat

/-- The three counter vectors `num_targets`, `num_dets` and `num_true_dets` of
`test_id`.  They are vectors of `double` that start at `0` and are only
incremented, so they hold natural numbers (exactly, below `2^53`). -/
structure Counters where
  num_targets : List Nat
  num_dets : List Nat
  num_true_dets : List Nat

/-- The statement `v[i]++` on a counter vector; an index out of range is undefined
behaviour. -/
def increment (v : List Nat) (i : Nat) : Option (List Nat) :=
  match v[i]? with
  | none => none
  | some x => some (v.set i (x + 1))

/-- The statements of lines 350-352 for one detection:
`num_dets[predicted_label]++; if (predicted_label == true_label) num_true_dets[true_label]++;`. -/
def count_detection (c : Counters) (predicted_label true_label : Nat) : Option Counters :=
  match increment c.num_dets predicted_label with
  | none => none
  | some nd =>
    if predicted_label = true_label then
      match increment c.num_true_dets true_label with
      | none => none
      | some nt => some { c with num_dets := nd, num_true_dets := nt }
    else some { c with num_dets := nd }

/-- The loop `for (j = 0; j < ranges.size(); ++j)` of lines 345-353: `count`
detections remain and the next one is `j`. -/
def count_detections (L : NerLabels) (chunks : List Span) (chunk_labels : List Nat)
    (ranges : List Span) (predicted_labels : List Nat) :
    Nat → Nat → Counters → Option Counters
  | 0, _, c => some c
  | count + 1, j, c =>
    match predicted_labels[j]?, ranges[j]? with
    | some predicted_label, some r =>
      match get_label L chunks chunk_labels r with
      | none => none
      | some true_label =>
        match count_detection c predicted_label true_label with
        | none => none
        | some c2 =>
          count_detections L chunks chunk_labels ranges predicted_labels count (j + 1) c2
    | _, _ => none

/-- The loop of lines 354-357, `num_targets[chunk_labels[i][j]]++` for every gold
label of the sentence. -/
def count_targets : List Nat → List Nat → Option (List Nat)
  | [], t => some t
  | l :: rest, t =>
    match increment t l with
    | none => none
    | some t2 => count_targets rest t2

/-- The loop over the sentences of `test_id` (lines 341-358).  The result is `none`
when the loop does not run to its end: the extractor call throws, or an index is
out of range. -/
def test_id_loop (L : NerLabels) (ner : named_entity_extractor) :
    List conll_sentence → Counters → Option Counters
  | [], c => some c
  | s :: rest, c =>
    match ner.run s.words with
    | none => none
    | some (ranges, predicted_labels) =>
      match count_detections L s.chunks s.chunk_labels ranges predicted_labels
          ranges.length 0 c with
      | none => none
      | some c2 =>
        match count_targets s.chunk_labels c2.num_targets with
        | none => none
        | some t => test_id_loop L ner rest { c2 with num_targets := t }

/-- The counters of `test_id` after the loop over the sentences: the three vectors
start with `num_labels = ner.get_tag_name_strings().size()` zeros (lines 333-336). -/
def test_id_counters (L : NerLabels) (ner : named_entity_extractor)
    (sentences : List conll_sentence) : Option Counters :=
  test_id_loop L ner sentences
    { num_targets := List.replicate ner.tag_name_strings.length 0
      num_dets := List.replicate ner.tag_name_strings.length 0
      num_true_dets := List.replicate ner.tag_name_strings.length 0 }

/-- The loop of lines 361-370 that reports every label: for label `i` the pair
`(prec, recall)` of the two quotients `num_true_dets[i]/num_dets[i]` and
`num_true_dets[i]/num_targets[i]`; `div` is the division of `double`.  The third
printed number, `f1`, is computed from the two and is left out. -/
def label_results {α : Type} (div : Nat → Nat → α) (c : Counters) :
    Nat → Nat → Option (List (α × α))
  | 0, _ => some []
  | count + 1, i =>
    match c.num_true_dets[i]?, c.num_dets[i]?, c.num_targets[i]? with
    | some t, some d, some g =>
      match label_results div c count (i + 1) with
      | none => none
      | some rest => some ((div t d, div t g) :: rest)
    | _, _, _ => none

/-- The totals of lines 373-374: `sum(num_true_dets)/sum(num_dets)` and
`sum(num_true_dets)/sum(num_targets)`. -/
def total_results {α : Type} (div : Nat → Nat → α) (c : Counters) : α × α :=
  (div c.num_true_dets.sum c.num_dets.sum, div c.num_true_dets.sum c.num_targets.sum)

/-- The numbers that `test_id` prints after the loop: the `(precision, recall)` of
every label and the total `(precision, recall)`. -/
def test_id {α : Type} (div : Nat → Nat → α) (L : NerLabels) (ner : named_entity_extractor)
    (sentences : List conll_sentence) : Option (List (α × α) × (α × α)) :=
  match test_id_counters L ner sentences with
  | none => none
  | some c =>
    match label_results div c c.num_targets.length 0 with
    | none => none
    | some per_label => some (per_label, total_results div c)

/-- The values of a `double` quotient of two counters: a number, `NaN` or
infinity. -/
inductive DoubleVal where
  | finite : ℚ → DoubleVal
  | nan : DoubleVal
  | inf : DoubleVal
deriving DecidableEq

/-- The division `x / y` of two `double` counters under IEEE 754: `0/0` is `NaN`,
`x/0` is infinity for `x > 0`; otherwise the quotient, whose rounding to a
`double` is not modelled. -/
def double_div (x y : Nat) : DoubleVal :=
  if y = 0 then (if x = 0 then DoubleVal.nan else DoubleVal.inf)
  else DoubleVal.finite ((x : ℚ) / (y : ℚ))

/-- The detections of a sentence as pairs `(range, predicted label)`; none when the
extractor call throws. -/
def detections_of (ner : named_entity_extractor) (s : conll_sentence) : List (Span × Nat) :=
  match ner.run s.words with
  | none => []
  | some (ranges, predicted_labels) => ranges.zip predicted_labels

/-- The detections of a sentence whose predicted label equals the label that
`get_label` finds for their range among the gold chunks. -/
def true_detections (L : NerLabels) (ner : named_entity_extractor) (s : conll_sentence) :
    List (Span × Nat) :=
  (detections_of ner s).filter
    (fun x => decide (get_label L s.chunks s.chunk_labels x.1 = some x.2))

/-- The inputs on which the loop of `test_id` stays within its vectors, for
`n = num_labels`: the extractor call returns as many labels as ranges, all below
`n`; there are as many gold labels as gold chunks (the precondition of `get_label`),
all below `n`. -/
def test_id_inputs_ok (n : Nat) (ner : named_entity_extractor)
    (sentences : List conll_sentence) : Prop :=
  ∀ s ∈ sentences,
    (∃ (ranges : List Span) (predicted_labels : List Nat),
      ner.run s.words = some (ranges, predicted_labels) ∧
      predicted_labels.length = ranges.length ∧
      ∀ p ∈ predicted_labels, p < n) ∧
    s.chunk_labels.length = s.chunks.length ∧
    ∀ g ∈ s.chunk_labels, g < n

/-- The extractor of the spec's metric example: for the one sentence it predicts
the spans `(0,2)` labelled `PERSON` (`0`) and `(3,4)` labelled `ORGANIZATION` (`2`). -/
def example_extractor : named_entity_extractor :=
  { tag_name_strings := ["PERSON", "LOCATION", "ORGANIZATION", "MISC"]
    run := fun _ => some ([(0, 2), (3, 4)], [0, 2]) }

/-- The sentence of the spec's metric example: six tokens with the gold spans
`(0,2)` labelled `PERSON` (`0`) and `(5,6)` labelled `LOCATION` (`1`). -/
def example_sentence : conll_sentence :=
  { words := ["a", "b", "c", "d", "e", "f"]
    chunks := [(0, 2), (5, 6)]
    chunk_labels := [0, 1] }

/-! ## `main` (main.cpp, lines 35-112) -/

/-- The parsed command line of `main`: which of the flag options are present, and
for the options with one argument the number that the argument denotes (`none`
when the option is absent).  `C` and `eps` are read as `double`, `threads` and
`cache-size` as integers. -/
structure CommandLine where
  h : Bool
  train_chunker : Bool
  test_chunker : Bool
  train_id : Bool
  test_id : Bool
  tag_file : Bool
  tag_conll_file : Bool
  C : Option ℚ
  eps : Option ℚ
  threads : Option Int
  cache_size : Option Int

/-- The functions that `main` dispatches to. -/
inductive Command where
  | print_options | tag_file | tag_conll_file | train_chunker | test_chunker
  | train_id | test_id
deriving DecidableEq, Repr

/-- How `main` ends: a check throws before any command is entered (`return 1`), a
command is entered, or no command is given (`return 0`). -/
inductive MainResult where
  | rejected : MainResult
  | entered : Command → MainResult
  | nothing : MainResult
deriving DecidableEq, Repr

/-- The call `parser.check_option_arg_range(name, first, last)` on a `double`
option: it throws when the option is present with an argument outside
`[first, last]`.  The result tells whether the check passes. -/
def check_option_arg_range (arg : Option ℚ) (first last : ℚ) : Bool :=
  match arg with
  | none => true
  | some v => decide (first ≤ v) && decide (v ≤ last)

/-- The call `parser.check_option_arg_range(name, first, last)` on an integer
option. -/
def check_option_arg_range_int (arg : Option Int) (first last : Int) : Bool :=
  match arg with
  | none => true
  | some v => decide (first ≤ v) && decide (v ≤ last)

/-- The call `parser.check_sub_options(training_ops, training_subops)`: it throws
when one of `C`, `eps`, `threads`, `cache-size` is present while neither
`train-chunker` nor `train-id` is. -/
def check_sub_options (cmd : CommandLine) : Bool :=
  !(cmd.C.isSome || cmd.eps.isSome || cmd.threads.isSome || cmd.cache_size.isSome)
    || cmd.train_chunker || cmd.train_id

/-- The function `main` after `parser.parse`: the three range checks of lines
54-56, the sub-option check of line 60, then the dispatch of lines 62-105. -/
def main (cmd : CommandLine) : MainResult :=
  if !check_option_arg_range cmd.C (1 / 1000000000) 1000000000 then MainResult.rejected
  else if !check_option_arg_range_int cmd.threads 1 64 then MainResult.rejected
  else if !check_option_arg_range_int cmd.cache_size 0 500 then MainResult.rejected
  else if !check_sub_options cmd then MainResult.rejected
  else if cmd.h then MainResult.entered Command.print_options
  else if cmd.tag_file then MainResult.entered Command.tag_file
  else if cmd.tag_conll_file then MainResult.entered Command.tag_conll_file
  else if cmd.train_chunker then MainResult.entered Command.train_chunker
  else if cmd.test_chunker then MainResult.entered Command.test_chunker
  else if cmd.train_id then MainResult.entered Command.train_id
  else if cmd.test_id then MainResult.entered Command.test_id
  else MainResult.nothing

/-- The command line `ner --train-chunker --eps <e> <file>`. -/
def train_chunker_with_eps (e : ℚ) : CommandLine :=
  { h := false, train_chunker := true, test_chunker := false, train_id := false,
    test_id := false, tag_file := false, tag_conll_file := false,
    C := none, eps := some e, threads := none, cache_size := none }

/-! ## Lemmas on `get_label` -/

theorem get_label_loop_spec (L : NerLabels) (chunk_labels : List Nat) (range : Span) :
    ∀ (rest : List Span) (i : Nat), i + rest.length ≤ chunk_labels.length →
      (range ∉ rest ∧ get_label_loop L chunk_labels range rest i = some L.NOT_ENTITY) ∨
      (∃ t, t < rest.length ∧ rest[t]? = some range ∧
        (∀ u : Nat, u < t → rest[u]? ≠ some range) ∧
        get_label_loop L chunk_labels range rest i = chunk_labels[i + t]? ∧
        i + t < chunk_labels.length) := by
  intro rest
  induction rest with
  | nil => intro i _; left; simp [get_label_loop]
  | cons c rest ih =>
    intro i hi
    simp only [List.length_cons] at hi
    by_cases hc : range = c
    · right
      refine ⟨0, by simp, by simp [hc], by intro u hu; omega, ?_, by omega⟩
      simp [get_label_loop, hc]
    · rcases ih (i + 1) (by omega) with ⟨hnot, hres⟩ | ⟨t, ht, hget, hfirst, hres, hlt⟩
      · left
        refine ⟨?_, ?_⟩
        · simp [hc, hnot]
        · simp [get_label_loop, hc, hres]
      · right
        refine ⟨t + 1, by simp; omega, by simpa using hget, ?_, ?_, by omega⟩
        · intro u hu
          cases u with
          | zero => simpa using fun h => hc h.symm
          | succ u => simpa using hfirst u (by omega)
        · simp only [get_label_loop, hc, if_false]
          rw [hres]
          congr 1
          omega

theorem get_label_spec (L : NerLabels) (chunks : List Span) (chunk_labels : List Nat)
    (range : Span) (hlen : chunk_labels.length = chunks.length) :
    (range ∉ chunks ∧ get_label L chunks chunk_labels range = some L.NOT_ENTITY) ∨
    (∃ t l, chunks[t]? = some range ∧ chunk_labels[t]? = some l ∧
      (∀ u : Nat, u < t → chunks[u]? ≠ some range) ∧
      get_label L chunks chunk_labels range = some l) := by
  rcases get_label_loop_spec L chunk_labels range chunks 0 (by omega) with
    h | ⟨t, _, hget, hfirst, hres, hlt⟩
  · exact Or.inl h
  · right
    simp only [Nat.zero_add] at hres hlt
    refine ⟨t, chunk_labels[t], hget, ?_, hfirst, ?_⟩
    · simp [hlt]
    · simp [get_label, hres, hlt]

/-! ## Lemmas on the `std::set` model -/

theorem pair_lt_iff (a b : Span) :
    pair_lt a b = true ↔ a.1 < b.1 ∨ (a.1 = b.1 ∧ a.2 < b.2) := by
  simp only [pair_lt, Bool.or_eq_true, Bool.and_eq_true, decide_eq_true_eq,
    Bool.not_eq_true', decide_eq_false_iff_not]
  omega

theorem pair_lt_irrefl (a : Span) : pair_lt a a = false := by
  cases h : pair_lt a a with
  | false => rfl
  | true => rw [pair_lt_iff] at h; omega

theorem pair_lt_trans {a b c : Span} (hab : pair_lt a b = true) (hbc : pair_lt b c = true) :
    pair_lt a c = true := by
  rw [pair_lt_iff] at *
  omega

theorem pair_eq_of_not_lt {a b : Span} (hab : pair_lt a b = false) (hba : pair_lt b a = false) :
    a = b := by
  have h1 : ¬ (a.1 < b.1 ∨ (a.1 = b.1 ∧ a.2 < b.2)) := by
    rw [← pair_lt_iff, hab]; simp
  have h2 : ¬ (b.1 < a.1 ∨ (b.1 = a.1 ∧ b.2 < a.2)) := by
    rw [← pair_lt_iff, hba]; simp
  apply Prod.ext <;> omega

theorem set_insert_cons_lt {x z : Span} (zs : List Span) (h : pair_lt x z = true) :
    set_insert x (z :: zs) = x :: z :: zs := by
  simp [set_insert, h]

theorem set_insert_cons_gt {x z : Span} (zs : List Span) (h1 : pair_lt x z = false)
    (h2 : pair_lt z x = true) : set_insert x (z :: zs) = z :: set_insert x zs := by
  simp [set_insert, h1, h2]

theorem set_insert_cons_eq {x z : Span} (zs : List Span) (h1 : pair_lt x z = false)
    (h2 : pair_lt z x = false) : set_insert x (z :: zs) = z :: zs := by
  simp [set_insert, h1, h2]

theorem mem_set_insert (x y : Span) (s : List Span) :
    y ∈ set_insert x s ↔ y = x ∨ y ∈ s := by
  induction s with
  | nil => simp [set_insert]
  | cons z zs ih =>
    cases h1 : pair_lt x z with
    | true => rw [set_insert_cons_lt zs h1]; simp
    | false =>
      cases h2 : pair_lt z x with
      | true =>
        rw [set_insert_cons_gt zs h1 h2, List.mem_cons, ih, List.mem_cons]
        tauto
      | false =>
        rw [set_insert_cons_eq zs h1 h2, pair_eq_of_not_lt h1 h2]
        simp

theorem sorted_set_insert (x : Span) (s : List Span)
    (hs : s.Pairwise (fun a b => pair_lt a b = true)) :
    (set_insert x s).Pairwise (fun a b => pair_lt a b = true) := by
  induction s with
  | nil => simp [set_insert]
  | cons z zs ih =>
    rw [List.pairwise_cons] at hs
    obtain ⟨hz, hzs⟩ := hs
    cases h1 : pair_lt x z with
    | true =>
      rw [set_insert_cons_lt zs h1]
      refine List.Pairwise.cons ?_ (List.Pairwise.cons hz hzs)
      intro a ha
      rcases List.mem_cons.mp ha with rfl | ha
      · exact h1
      · exact pair_lt_trans h1 (hz a ha)
    | false =>
      cases h2 : pair_lt z x with
      | true =>
        rw [set_insert_cons_gt zs h1 h2]
        refine List.Pairwise.cons ?_ (ih hzs)
        intro a ha
        rcases (mem_set_insert x a zs).mp ha with rfl | ha
        · exact h2
        · exact hz a ha
      | false =>
        rw [set_insert_cons_eq zs h1 h2]
        exact List.Pairwise.cons hz hzs

theorem mem_set_insert_range (xs : List Span) :
    ∀ (s : List Span) (y : Span), y ∈ set_insert_range s xs ↔ y ∈ s ∨ y ∈ xs := by
  induction xs with
  | nil => intro s y; simp [set_insert_range]
  | cons x xs ih =>
    intro s y
    have h := ih (set_insert x s) y
    simp only [set_insert_range, List.foldl_cons] at h ⊢
    rw [h, mem_set_insert, List.mem_cons]
    tauto

theorem sorted_set_insert_range (xs : List Span) :
    ∀ (s : List Span), s.Pairwise (fun a b => pair_lt a b = true) →
      (set_insert_range s xs).Pairwise (fun a b => pair_lt a b = true) := by
  induction xs with
  | nil => intro s hs; simpa [set_insert_range] using hs
  | cons x xs ih =>
    intro s hs
    have h := ih (set_insert x s) (sorted_set_insert x s hs)
    simpa [set_insert_range] using h

theorem mem_train_id_ranges (chunks temp : List Span) (y : Span) :
    y ∈ train_id_ranges chunks temp ↔ y ∈ chunks ∨ y ∈ temp := by
  simp [train_id_ranges, mem_set_insert_range]

theorem sorted_train_id_ranges (chunks temp : List Span) :
    (train_id_ranges chunks temp).Pairwise (fun a b => pair_lt a b = true) :=
  sorted_set_insert_range temp _ (sorted_set_insert_range chunks [] List.Pairwise.nil)

theorem nodup_train_id_ranges (chunks temp : List Span) :
    (train_id_ranges chunks temp).Nodup := by
  refine (sorted_train_id_ranges chunks temp).imp ?_
  intro a b hab heq
  subst heq
  rw [pair_lt_irrefl] at hab
  exact Bool.false_ne_true hab

theorem length_train_id_ranges (chunks temp : List Span) :
    (train_id_ranges chunks temp).length = (chunks ++ temp).toFinset.card := by
  rw [← List.toFinset_card_of_nodup (nodup_train_id_ranges chunks temp)]
  congr 1
  ext y
  simp [mem_train_id_ranges]

/-! ## Lemmas on the sample loop of `train_id` -/

theorem train_id_push_spec {α : Type} (L : NerLabels) (extract : Span → α)
    (chunks : List Span) (chunk_labels : List Nat)
    (hlen : chunk_labels.length = chunks.length) :
    ∀ (rs : List Span) (st : List α × List Nat),
      ∃ lbls : List Nat,
        train_id_push L extract chunks chunk_labels rs st
          = some (st.1 ++ rs.map extract, st.2 ++ lbls) ∧
        lbls.length = rs.length ∧
        ∀ (t : Nat) (r : Span) (l : Nat), rs[t]? = some r → lbls[t]? = some l →
          get_label L chunks chunk_labels r = some l := by
  intro rs
  induction rs with
  | nil => intro st; exact ⟨[], by simp [train_id_push], rfl, by simp⟩
  | cons r rs ih =>
    intro st
    have hr : ∃ l, get_label L chunks chunk_labels r = some l := by
      rcases get_label_spec L chunks chunk_labels r hlen with ⟨_, h⟩ | ⟨_, l, _, _, _, h⟩
      · exact ⟨_, h⟩
      · exact ⟨l, h⟩
    obtain ⟨l, hl⟩ := hr
    obtain ⟨lbls, hpush, hlen2, hall⟩ := ih (st.1 ++ [extract r], st.2 ++ [l])
    refine ⟨l :: lbls, ?_, by simp [hlen2], ?_⟩
    · simp only [train_id_push, hl, hpush]
      simp
    · intro t r2 l2 h1 h2
      cases t with
      | zero =>
        simp only [List.getElem?_cons_zero, Option.some.injEq] at h1 h2
        subst h1 h2
        exact hl
      | succ t =>
        simp only [List.getElem?_cons_succ] at h1 h2
        exact hall t r2 l2 h1 h2

theorem card_union_lt_of_shared (chunks temp : List Span)
    (h : ∃ x, x ∈ chunks ∧ x ∈ temp) :
    (chunks ++ temp).toFinset.card < chunks.length + temp.length := by
  obtain ⟨x, hx1, hx2⟩ := h
  have hle : (chunks ++ temp).toFinset.card ≤ (chunks ++ temp).length :=
    List.toFinset_card_le _
  rw [List.length_append] at hle
  rcases Nat.lt_or_ge (chunks ++ temp).toFinset.card (chunks.length + temp.length) with h | h
  · exact h
  · exfalso
    have heq : (chunks ++ temp).dedup.length = (chunks ++ temp).length := by
      rw [← List.card_toFinset, List.length_append]; omega
    have hd : (chunks ++ temp).dedup = chunks ++ temp :=
      (List.dedup_sublist _).eq_of_length heq
    have hnd : (chunks ++ temp).Nodup := List.dedup_eq_self.mp hd
    rw [List.nodup_append] at hnd
    exact hnd.2.2 hx1 hx2

/-! ## Reject-label correctness and span-union cardinality -/

/-- C1: with `chunks.size() == chunk_labels.size()`, `get_label` returns
`NOT_ENTITY` for a range equal to no gold chunk and, for a range equal to some
gold chunk, the label stored at the (first) index of a chunk equal to the range;
hence every sample `train_id` appends for a sentence is labelled `NOT_ENTITY`
when its span matches no gold span and carries the label of a gold span equal to
its span otherwise. -/
theorem get_label_reject_label_correct {α : Type} (L : NerLabels)
    (chunks : List Span) (chunk_labels : List Nat)
    (hlen : chunk_labels.length = chunks.length) :
    (∀ range : Span,
      (range ∉ chunks → get_label L chunks chunk_labels range = some L.NOT_ENTITY) ∧
      (range ∈ chunks → ∃ (i l : Nat), chunks[i]? = some range ∧
        chunk_labels[i]? = some l ∧ (∀ u : Nat, u < i → chunks[u]? ≠ some range) ∧
        get_label L chunks chunk_labels range = some l)) ∧
    (∀ (extract : Span → α) (temp : List Span) (st : List α × List Nat),
      ∃ lbls : List Nat,
        train_id_sentence L extract chunks chunk_labels temp st
          = some (st.1 ++ (train_id_ranges chunks temp).map extract, st.2 ++ lbls) ∧
        lbls.length = (train_id_ranges chunks temp).length ∧
        ∀ (t : Nat) (r : Span) (l : Nat),
          (train_id_ranges chunks temp)[t]? = some r → lbls[t]? = some l →
            (r ∉ chunks → l = L.NOT_ENTITY) ∧
            (r ∈ chunks → ∃ i : Nat, chunks[i]? = some r ∧ chunk_labels[i]? = some l)) := by
  have hget : ∀ range : Span,
      (range ∉ chunks → get_label L chunks chunk_labels range = some L.NOT_ENTITY) ∧
      (range ∈ chunks → ∃ (i l : Nat), chunks[i]? = some range ∧
        chunk_labels[i]? = some l ∧ (∀ u : Nat, u < i → chunks[u]? ≠ some range) ∧
        get_label L chunks chunk_labels range = some l) := by
    intro range
    rcases get_label_spec L chunks chunk_labels range hlen with
      ⟨hn, h⟩ | ⟨t, l, h1, h2, h3, h4⟩
    · exact ⟨fun _ => h, fun hm => absurd hm hn⟩
    · refine ⟨fun hn => ?_, fun _ => ⟨t, l, h1, h2, h3, h4⟩⟩
      exact absurd (List.getElem?_mem h1) hn
  refine ⟨hget, ?_⟩
  intro extract temp st
  obtain ⟨lbls, hpush, hl, hall⟩ :=
    train_id_push_spec L extract chunks chunk_labels hlen (train_id_ranges chunks temp) st
  refine ⟨lbls, hpush, hl, ?_⟩
  intro t r l hr hlb
  have hg := hall t r l hr hlb
  refine ⟨fun hn => ?_, fun hm => ?_⟩
  · have := (hget r).1 hn
    rw [hg] at this
    exact Option.some.inj this
  · obtain ⟨i, l2, h1, h2, _, h4⟩ := (hget r).2 hm
    rw [hg] at h4
    cases Option.some.inj h4
    exact ⟨i, h1, h2⟩

/-- Witness of C1 on the gold spans `(0,2)`, `(5,6)` with labels `0`, `1`. -/
theorem get_label_reject_label_correct_witness :
    (∀ range : Span,
      (range ∉ [((0 : Nat), (2 : Nat)), (5, 6)] →
        get_label ⟨0, 1, 2, 3, 4⟩ [(0, 2), (5, 6)] [0, 1] range = some 4) ∧
      (range ∈ [((0 : Nat), (2 : Nat)), (5, 6)] → ∃ (i l : Nat),
        [((0 : Nat), (2 : Nat)), (5, 6)][i]? = some range ∧
        [0, 1][i]? = some l ∧
        (∀ u : Nat, u < i → [((0 : Nat), (2 : Nat)), (5, 6)][u]? ≠ some range) ∧
        get_label ⟨0, 1, 2, 3, 4⟩ [(0, 2), (5, 6)] [0, 1] range = some l)) ∧
    (∀ (extract : Span → Span) (temp : List Span) (st : List Span × List Nat),
      ∃ lbls : List Nat,
        train_id_sentence ⟨0, 1, 2, 3, 4⟩ extract [(0, 2), (5, 6)] [0, 1] temp st
          = some (st.1 ++ (train_id_ranges [(0, 2), (5, 6)] temp).map extract,
              st.2 ++ lbls) ∧
        lbls.length = (train_id_ranges [(0, 2), (5, 6)] temp).length ∧
        ∀ (t : Nat) (r : Span) (l : Nat),
          (train_id_ranges [(0, 2), (5, 6)] temp)[t]? = some r → lbls[t]? = some l →
            (r ∉ [((0 : Nat), (2 : Nat)), (5, 6)] → l = 4) ∧
            (r ∈ [((0 : Nat), (2 : Nat)), (5, 6)] → ∃ i : Nat,
              [((0 : Nat), (2 : Nat)), (5, 6)][i]? = some r ∧ [0, 1][i]? = some l)) :=
  get_label_reject_label_correct ⟨0, 1, 2, 3, 4⟩ [(0, 2), (5, 6)] [0, 1] rfl

/-- C2: for one sentence with gold spans `chunks` (and as many gold labels) and
segmenter output `temp`, `train_id` appends to `samples` exactly the feature
vectors of a duplicate-free list of spans whose members are the spans of
`chunks` and `temp`; `samples` and `labels` both grow by the number of distinct
spans of `chunks ∪ temp`, which is less than `|chunks| + |temp|` as soon as the
two lists share a span. -/
theorem train_id_sample_count {α : Type} (L : NerLabels) (extract : Span → α)
    (chunks : List Span) (chunk_labels : List Nat) (temp : List Span)
    (st : List α × List Nat) (hlen : chunk_labels.length = chunks.length) :
    ∃ (st2 : List α × List Nat) (spans : List Span),
      train_id_sentence L extract chunks chunk_labels temp st = some st2 ∧
      spans.Nodup ∧ (∀ x : Span, x ∈ spans ↔ x ∈ chunks ∨ x ∈ temp) ∧
      st2.1 = st.1 ++ spans.map extract ∧
      st2.1.length = st.1.length + (chunks ++ temp).toFinset.card ∧
      st2.2.length = st.2.length + (chunks ++ temp).toFinset.card ∧
      ((∃ x, x ∈ chunks ∧ x ∈ temp) →
        st2.1.length < st.1.length + (chunks.length + temp.length)) := by
  obtain ⟨lbls, hpush, hl, _⟩ :=
    train_id_push_spec L extract chunks chunk_labels hlen (train_id_ranges chunks temp) st
  have hcard := length_train_id_ranges chunks temp
  refine ⟨_, train_id_ranges chunks temp, hpush, nodup_train_id_ranges chunks temp,
    mem_train_id_ranges chunks temp, rfl, ?_, ?_, ?_⟩
  · simp [hcard]
  · simp [hl, hcard]
  · intro hshared
    have := card_union_lt_of_shared chunks temp hshared
    simp only [List.length_append, List.length_map, hcard]
    omega

/-- Witness of C2: gold spans `(0,2)`, `(5,6)` and segmenter output `(0,2)`, `(3,4)`. -/
theorem train_id_sample_count_witness :
    ∃ (st2 : List Span × List Nat) (spans : List Span),
      train_id_sentence ⟨0, 1, 2, 3, 4⟩ id [(0, 2), (5, 6)] [0, 1] [(0, 2), (3, 4)] ([], [])
        = some st2 ∧
      spans.Nodup ∧
      (∀ x : Span, x ∈ spans ↔
        x ∈ [((0 : Nat), (2 : Nat)), (5, 6)] ∨ x ∈ [((0 : Nat), (2 : Nat)), (3, 4)]) ∧
      st2.1 = [] ++ spans.map id ∧
      st2.1.length
        = ([] : List Span).length
          + ([((0 : Nat), (2 : Nat)), (5, 6)] ++ [(0, 2), (3, 4)]).toFinset.card ∧
      st2.2.length
        = ([] : List Nat).length
          + ([((0 : Nat), (2 : Nat)), (5, 6)] ++ [(0, 2), (3, 4)]).toFinset.card ∧
      ((∃ x, x ∈ [((0 : Nat), (2 : Nat)), (5, 6)] ∧ x ∈ [((0 : Nat), (2 : Nat)), (3, 4)]) →
        st2.1.length < ([] : List Span).length
          + ([((0 : Nat), (2 : Nat)), (5, 6)].length
            + [((0 : Nat), (2 : Nat)), (3, 4)].length)) :=
  train_id_sample_count ⟨0, 1, 2, 3, 4⟩ id [(0, 2), (5, 6)] [0, 1] [(0, 2), (3, 4)]
    ([], []) rfl

/-! ## Lemmas on `mitie_extract_entities` -/

theorem tokenize_loop_eq (toks : List (String × Nat)) :
    ∀ acc : List String × List Nat,
      tokenize_loop toks acc = (acc.1 ++ toks.map Prod.fst, acc.2 ++ toks.map Prod.snd) := by
  induction toks with
  | nil => intro acc; simp [tokenize_loop]
  | cons t toks ih =>
    intro acc
    obtain ⟨word, pos⟩ := t
    simp [tokenize_loop, ih]

theorem tokenize_loop_nil (toks : List (String × Nat)) :
    tokenize_loop toks ([], []) = (toks.map Prod.fst, toks.map Prod.snd) := by
  simp [tokenize_loop_eq]

theorem remap_ranges_eq_map (words : List String) (word_pos : List Nat) (g : Span → Span) :
    ∀ ranges : List Span, (∀ r ∈ ranges, remap_range words word_pos r = some (g r)) →
      remap_ranges words word_pos ranges = some (ranges.map g) := by
  intro ranges
  induction ranges with
  | nil => intro _; rfl
  | cons r rest ih =>
    intro h
    have hr := h r (List.mem_cons_self _ _)
    have hrest := ih (fun q hq => h q (List.mem_cons_of_mem _ hq))
    simp [remap_ranges, hr, hrest]

/-- The tokens of a text obeying the tokenizer contract: the offset of token `k` is
at least `k`. -/
theorem offset_ge_index (toks : List (String × Nat))
    (hpos : ∀ t ∈ toks, 0 < t.1.length)
    (hord : toks.Pairwise (fun a b => a.2 + a.1.length ≤ b.2)) :
    ∀ (k : Nat) (t : String × Nat), toks[k]? = some t → k ≤ t.2 := by
  intro k
  induction k with
  | zero => intro t _; exact Nat.zero_le _
  | succ k ih =>
    intro t ht
    have hk1 : k + 1 < toks.length := (List.getElem?_eq_some.mp ht).1
    have hk : k < toks.length := by omega
    have h0 : toks[k]? = some toks[k] := List.getElem?_eq_getElem hk
    have hle := ih toks[k] h0
    have hlt := List.pairwise_iff_getElem.mp hord k (k + 1) hk hk1 (by omega)
    have hp := hpos toks[k] (List.getElem_mem hk)
    have : toks[k + 1] = t := (List.getElem?_eq_some.mp ht).2
    rw [this] at hlt
    omega

theorem token_count_le (text : String) (toks : List (String × Nat))
    (htok : tokenizer_contract text toks) : toks.length ≤ text.length := by
  rcases Nat.eq_zero_or_pos toks.length with h | h
  · omega
  · have hk : toks.length - 1 < toks.length := by omega
    have hm := List.getElem_mem hk
    have h1 := offset_ge_index toks (fun t ht => (htok.1 t ht).1) htok.2
      (toks.length - 1) _ (List.getElem?_eq_getElem hk)
    have h2 := htok.1 _ hm
    omega

/-- The remapped range that the loop writes for a token range `r`. -/
theorem remap_range_of_contract (text : String) (toks : List (String × Nat))
    (htok : tokenizer_contract text toks) (htext : text.length < ULONG_SIZE)
    (r : Span) (hr : r.1 < r.2 ∧ r.2 ≤ toks.length) :
    ∃ wi wj : String × Nat, toks[r.1]? = some wi ∧ toks[r.2 - 1]? = some wj ∧
      remap_range (toks.map Prod.fst) (toks.map Prod.snd) r
        = some (wi.2, wj.2 + wj.1.length) ∧
      wi.2 ≤ wj.2 + wj.1.length ∧ wj.2 + wj.1.length < ULONG_SIZE := by
  have hn := token_count_le text toks htok
  have hi : r.1 < toks.length := by omega
  have hj : r.2 - 1 < toks.length := by omega
  have hsub : ulong_sub r.2 1 = r.2 - 1 := by
    unfold ulong_sub
    have : r.2 + ULONG_SIZE - 1 = (r.2 - 1) + ULONG_SIZE := by omega
    rw [this, Nat.add_mod_right]
    exact Nat.mod_eq_of_lt (by omega)
  have hin := htok.1 toks[r.2 - 1] (List.getElem_mem hj)
  have hfit : toks[r.2 - 1].2 + toks[r.2 - 1].1.length < ULONG_SIZE := by omega
  have hord : toks[r.1].2 ≤ toks[r.2 - 1].2 + toks[r.2 - 1].1.length := by
    rcases Nat.lt_or_ge r.1 (r.2 - 1) with h | h
    · have := List.pairwise_iff_getElem.mp htok.2 r.1 (r.2 - 1) hi hj h
      omega
    · have he : r.1 = r.2 - 1 := by omega
      simp only [he]
      omega
  refine ⟨toks[r.1], toks[r.2 - 1], List.getElem?_eq_getElem hi,
    List.getElem?_eq_getElem hj, ?_, hord, hfit⟩
  have hadd : ulong_add toks[r.2 - 1].2 toks[r.2 - 1].1.length
      = toks[r.2 - 1].2 + toks[r.2 - 1].1.length := by
    unfold ulong_add
    exact Nat.mod_eq_of_lt hfit
  simp [remap_range, hsub, List.getElem?_map, List.getElem?_eq_getElem hi,
    List.getElem?_eq_getElem hj, hadd]

/-- The object that `mitie_extract_entities` returns when the ranges of the
extractor lie within the tokens: every range is remapped to character offsets. -/
theorem extract_entities_object (tokenizer : String → List (String × Nat))
    (ner : mitie_named_entity_extractor) (text : String)
    (ranges : List Span) (labels : List Nat)
    (hrun : ner.impl.run ((tokenizer text).map Prod.fst) = some (ranges, labels))
    (hspans : ∀ r ∈ ranges, r.1 < r.2 ∧ r.2 ≤ (tokenizer text).length)
    (htok : tokenizer_contract text (tokenizer text))
    (htext : text.length < ULONG_SIZE) :
    mitie_extract_entities tokenizer ner text =
      Ret.object
        { type := MITIE_NAMED_ENTITY_DETECTIONS
          impl :=
            { ranges := ranges.map (fun r =>
                (((tokenizer text)[r.1]?.map Prod.snd).getD 0,
                 ((tokenizer text)[r.2 - 1]?.map (fun w => w.2 + w.1.length)).getD 0))
              predicted_labels := labels
              tags := ner.impl.tag_name_strings } } := by
  have hmap := remap_ranges_eq_map ((tokenizer text).map Prod.fst)
    ((tokenizer text).map Prod.snd)
    (fun r => (((tokenizer text)[r.1]?.map Prod.snd).getD 0,
               ((tokenizer text)[r.2 - 1]?.map (fun w => w.2 + w.1.length)).getD 0))
    ranges (by
      intro r hr
      obtain ⟨wi, wj, h1, h2, h3, _, _⟩ :=
        remap_range_of_contract text (tokenizer text) htok htext r (hspans r hr)
      simp [h3, h1, h2])
  simp only [mitie_extract_entities, tokenize_loop_nil, hrun, hmap]

/-! ## Offset remapping and detection order -/

/-- C3: when the extractor returns token ranges `[i, j)` with `i < j <= number of
tokens` for a text whose tokens obey the tokenizer contract, `mitie_extract_entities`
returns an object with one detection per range, whose position is the offset of
token `i` and whose position plus length is the offset of token `j-1` plus the
length of that token's own text. -/
theorem extract_entities_offsets (tokenizer : String → List (String × Nat))
    (ner : mitie_named_entity_extractor) (text : String)
    (ranges : List Span) (labels : List Nat)
    (hrun : ner.impl.run ((tokenizer text).map Prod.fst) = some (ranges, labels))
    (hspans : ∀ r ∈ ranges, r.1 < r.2 ∧ r.2 ≤ (tokenizer text).length)
    (htok : tokenizer_contract text (tokenizer text))
    (htext : text.length < ULONG_SIZE) :
    ∃ dets : mitie_named_entity_detections,
      mitie_extract_entities tokenizer ner text = Ret.object dets ∧
      mitie_ner_get_num_detections dets = ranges.length ∧
      ∀ (idx i j : Nat), ranges[idx]? = some (i, j) →
        ∃ (wi wj : String × Nat) (len : Nat),
          (tokenizer text)[i]? = some wi ∧ (tokenizer text)[j - 1]? = some wj ∧
          mitie_ner_get_detection_position dets idx = some wi.2 ∧
          mitie_ner_get_detection_length dets idx = some len ∧
          wi.2 + len = wj.2 + wj.1.length := by
  refine ⟨_, extract_entities_object tokenizer ner text ranges labels hrun hspans htok htext,
    by simp [mitie_ner_get_num_detections], ?_⟩
  intro idx i j hidx
  have hmem : (i, j) ∈ ranges := List.getElem?_mem hidx
  obtain ⟨wi, wj, h1, h2, _, hle, hfit⟩ :=
    remap_range_of_contract text (tokenizer text) htok htext (i, j) (hspans _ hmem)
  simp only at h1 h2 hle hfit
  refine ⟨wi, wj, wj.2 + wj.1.length - wi.2, h1, h2, ?_, ?_, by omega⟩
  · simp [mitie_ner_get_detection_position, List.getElem?_map, hidx, h1]
  · have hsub : ulong_sub (wj.2 + wj.1.length) wi.2 = wj.2 + wj.1.length - wi.2 := by
      unfold ulong_sub
      have : wj.2 + wj.1.length + ULONG_SIZE - wi.2
          = (wj.2 + wj.1.length - wi.2) + ULONG_SIZE := by omega
      rw [this, Nat.add_mod_right]
      exact Nat.mod_eq_of_lt (by omega)
    simp [mitie_ner_get_detection_length, List.getElem?_map, hidx, h1, h2, hsub]

/-- Witness of C3: the text `John Smith lives` with the detection `[0, 2)`. -/
theorem extract_entities_offsets_witness :
    ∃ dets : mitie_named_entity_detections,
      mitie_extract_entities (fun _ => [("John", 0), ("Smith", 5), ("lives", 11)])
        ⟨MITIE_NAMED_ENTITY_EXTRACTOR, ⟨["PERSON"], fun _ => some ([(0, 2)], [0])⟩⟩
        "John Smith lives" = Ret.object dets ∧
      mitie_ner_get_num_detections dets = [((0 : Nat), (2 : Nat))].length ∧
      ∀ (idx i j : Nat), [((0 : Nat), (2 : Nat))][idx]? = some (i, j) →
        ∃ (wi wj : String × Nat) (len : Nat),
          [("John", 0), ("Smith", 5), ("lives", 11)][i]? = some wi ∧
          [("John", 0), ("Smith", 5), ("lives", 11)][j - 1]? = some wj ∧
          mitie_ner_get_detection_position dets idx = some wi.2 ∧
          mitie_ner_get_detection_length dets idx = some len ∧
          wi.2 + len = wj.2 + wj.1.length :=
  extract_entities_offsets (fun _ => [("John", 0), ("Smith", 5), ("lives", 11)])
    ⟨MITIE_NAMED_ENTITY_EXTRACTOR, ⟨["PERSON"], fun _ => some ([(0, 2)], [0])⟩⟩
    "John Smith lives" [(0, 2)] [0] rfl (by decide) ⟨by decide, by decide⟩ (by decide)

/-- C4: when the extractor returns its spans under the extractor output contract
(non-overlapping spans in sentence order) for a text whose tokens obey the
tokenizer contract, the detections of `mitie_extract_entities` have strictly
increasing positions: position `idx` is below position `idx + 1` for all valid
indices. -/
theorem extract_entities_sorted (tokenizer : String → List (String × Nat))
    (ner : mitie_named_entity_extractor) (text : String)
    (ranges : List Span) (labels : List Nat)
    (hrun : ner.impl.run ((tokenizer text).map Prod.fst) = some (ranges, labels))
    (hout : extractor_output_contract (tokenizer text).length ranges)
    (htok : tokenizer_contract text (tokenizer text))
    (htext : text.length < ULONG_SIZE) :
    ∃ dets : mitie_named_entity_detections,
      mitie_extract_entities tokenizer ner text = Ret.object dets ∧
      mitie_ner_get_num_detections dets = ranges.length ∧
      ∀ idx : Nat, idx + 1 < mitie_ner_get_num_detections dets →
        ∃ p q : Nat,
          mitie_ner_get_detection_position dets idx = some p ∧
          mitie_ner_get_detection_position dets (idx + 1) = some q ∧ p < q := by
  refine ⟨_, extract_entities_object tokenizer ner text ranges labels hrun hout.1 htok htext,
    by simp [mitie_ner_get_num_detections], ?_⟩
  intro idx hidx
  simp only [mitie_ner_get_num_detections, List.length_map] at hidx
  have h0 : idx < ranges.length := by omega
  have hr0 := hout.1 ranges[idx] (List.getElem_mem h0)
  have hr1 := hout.1 ranges[idx + 1] (List.getElem_mem hidx)
  have hsep := List.pairwise_iff_getElem.mp hout.2 idx (idx + 1) h0 hidx (by omega)
  have hi : ranges[idx].1 < (tokenizer text).length := by omega
  have hj : ranges[idx + 1].1 < (tokenizer text).length := by omega
  have hlt : ranges[idx].1 < ranges[idx + 1].1 := by omega
  have hoff := List.pairwise_iff_getElem.mp htok.2 ranges[idx].1 ranges[idx + 1].1 hi hj hlt
  have hpos := (htok.1 _ (List.getElem_mem hi)).1
  refine ⟨(tokenizer text)[ranges[idx].1].2, (tokenizer text)[ranges[idx + 1].1].2, ?_, ?_,
    by omega⟩
  · simp [mitie_ner_get_detection_position, List.getElem?_map,
      List.getElem?_eq_getElem h0, List.getElem?_eq_getElem hi]
  · simp [mitie_ner_get_detection_position, List.getElem?_map,
      List.getElem?_eq_getElem hidx, List.getElem?_eq_getElem hj]

/-- Witness of C4: the text `John Smith met Mary` with detections `[0, 2)` and `[3, 4)`. -/
theorem extract_entities_sorted_witness :
    ∃ dets : mitie_named_entity_detections,
      mitie_extract_entities (fun _ => [("John", 0), ("Smith", 5), ("met", 11), ("Mary", 15)])
        ⟨MITIE_NAMED_ENTITY_EXTRACTOR, ⟨["PERSON"], fun _ => some ([(0, 2), (3, 4)], [0, 0])⟩⟩
        "John Smith met Mary" = Ret.object dets ∧
      mitie_ner_get_num_detections dets = [((0 : Nat), (2 : Nat)), (3, 4)].length ∧
      ∀ idx : Nat, idx + 1 < mitie_ner_get_num_detections dets →
        ∃ p q : Nat,
          mitie_ner_get_detection_position dets idx = some p ∧
          mitie_ner_get_detection_position dets (idx + 1) = some q ∧ p < q :=
  extract_entities_sorted (fun _ => [("John", 0), ("Smith", 5), ("met", 11), ("Mary", 15)])
    ⟨MITIE_NAMED_ENTITY_EXTRACTOR, ⟨["PERSON"], fun _ => some ([(0, 2), (3, 4)], [0, 0])⟩⟩
    "John Smith met Mary" [(0, 2), (3, 4)] [0, 0] rfl
    ⟨by decide, by decide⟩ ⟨by decide, by decide⟩ (by decide)

/-! ## Handle safety -/

/-- On a live object of one of the two known kinds `mitie_free` writes the sentinel
into the type word, deletes the object and returns. -/
theorem mitie_free_known_kind (m : Memory) (object t : Nat) (hnn : object ≠ 0)
    (hlive : m.object_at object = some t)
    (hkind : t = MITIE_NAMED_ENTITY_EXTRACTOR ∨ t = MITIE_NAMED_ENTITY_DETECTIONS) :
    mitie_free m object = FreeResult.returned (release m object) ∧
    (set_type m object MITIE_NOT_A_MITIE_OBJECT).object_at object
      = some MITIE_NOT_A_MITIE_OBJECT ∧
    (release m object).object_at object = none := by
  refine ⟨?_, by simp [set_type, hlive], by simp [release, delete_object]⟩
  rcases hkind with h | h
  · simp [mitie_free, hnn, hlive, h]
  · simp [mitie_free, hnn, hlive, h]

/-- On a live object whose type word is none of the two known kinds `mitie_free`
takes the abort branch. -/
theorem mitie_free_unknown_kind (m : Memory) (object t : Nat) (hnn : object ≠ 0)
    (hlive : m.object_at object = some t)
    (h1 : t ≠ MITIE_NAMED_ENTITY_EXTRACTOR) (h2 : t ≠ MITIE_NAMED_ENTITY_DETECTIONS) :
    mitie_free m object = FreeResult.aborted := by
  simp [mitie_free, hnn, hlive, h1, h2]

/-- On an address that holds no live object the behaviour of `mitie_free` is
undefined: the sentinel that a former release wrote there is not what it reads. -/
theorem mitie_free_not_live (m : Memory) (object : Nat) (hnn : object ≠ 0)
    (hfreed : m.object_at object = none) :
    mitie_free m object = FreeResult.undefined := by
  simp [mitie_free, hnn, hfreed]

/-- C9, the defect: the first `mitie_free` of the extractor handle at address `8`
writes the sentinel and deletes the object, so that no live object is left at `8`;
the second `mitie_free` of the same handle reads freed storage, which is undefined
behaviour and not the abort branch; and once the allocator has placed a new
detections object at address `8`, the second `mitie_free` of the old handle returns
normally and deletes the new object. -/
theorem mitie_free_twice_not_detected :
    mitie_free one_extractor 8 = FreeResult.returned (release one_extractor 8) ∧
    (set_type one_extractor 8 MITIE_NOT_A_MITIE_OBJECT).object_at 8
      = some MITIE_NOT_A_MITIE_OBJECT ∧
    (release one_extractor 8).object_at 8 = none ∧
    mitie_free (release one_extractor 8) 8 = FreeResult.undefined ∧
    mitie_free (allocate (release one_extractor 8) 8 MITIE_NAMED_ENTITY_DETECTIONS) 8
      = FreeResult.returned
          (release (allocate (release one_extractor 8) 8 MITIE_NAMED_ENTITY_DETECTIONS) 8) ∧
    (release (allocate (release one_extractor 8) 8
      MITIE_NAMED_ENTITY_DETECTIONS) 8).object_at 8 = none := by
  have h0 : one_extractor.object_at 8 = some MITIE_NAMED_ENTITY_EXTRACTOR := rfl
  obtain ⟨h1, h2, h3⟩ :=
    mitie_free_known_kind one_extractor 8 MITIE_NAMED_ENTITY_EXTRACTOR (by decide) h0
      (Or.inl rfl)
  have h4 := mitie_free_not_live (release one_extractor 8) 8 (by decide) h3
  have h5 : (allocate (release one_extractor 8) 8 MITIE_NAMED_ENTITY_DETECTIONS).object_at 8
      = some MITIE_NAMED_ENTITY_DETECTIONS := by simp [allocate]
  obtain ⟨h6, _, h7⟩ :=
    mitie_free_known_kind
      (allocate (release one_extractor 8) 8 MITIE_NAMED_ENTITY_DETECTIONS) 8
      MITIE_NAMED_ENTITY_DETECTIONS (by decide) h5 (Or.inr rfl)
  exact ⟨h1, h2, h3, h4, h6, h7⟩

/-- C10: `mitie_load_named_entity_extractor` never lets an exception out; it returns
`NULL` whenever the file cannot be opened or deserialization throws, and the
handle it returns otherwise is tagged `MITIE_NAMED_ENTITY_EXTRACTOR` and holds the
deserialized model: a non-null handle is returned only when the file opened and
deserialization succeeded, and is returned whenever they (and the two
allocations) succeed. -/
theorem load_returns_null_on_failure (env : LoadEnv) (filename : String) :
    ∃ r : Option mitie_named_entity_extractor,
      mitie_load_named_entity_extractor env filename = Except.ok r ∧
      (env.open_file filename = none → r = none) ∧
      (∀ (content : List Nat) (e : Thrown), env.open_file filename = some content →
        env.deserialize content = Except.error e → r = none) ∧
      (∀ h : mitie_named_entity_extractor, r = some h →
        h.type = MITIE_NAMED_ENTITY_EXTRACTOR ∧
        ∃ content : List Nat, env.open_file filename = some content ∧
          env.deserialize content = Except.ok h.impl) ∧
      (∀ (content : List Nat) (impl : named_entity_extractor),
        env.open_file filename = some content →
        env.new_obj = Except.ok () → env.new_impl = Except.ok () →
        env.deserialize content = Except.ok impl →
        r = some { type := MITIE_NAMED_ENTITY_EXTRACTOR, impl := impl }) := by
  cases hopen : env.open_file filename with
  | none =>
    refine ⟨none, ?_, by simp, by simp, by simp, by simp⟩
    simp [mitie_load_named_entity_extractor, load_try_block, hopen]
  | some content =>
    cases hobj : env.new_obj with
    | error e =>
      refine ⟨none, ?_, by simp, by simp, by simp, by simp⟩
      cases e <;> simp [mitie_load_named_entity_extractor, load_try_block, hopen, hobj]
    | ok u =>
      cases himpl : env.new_impl with
      | error e =>
        refine ⟨none, ?_, by simp, by simp, by simp, by simp⟩
        cases e <;>
          simp [mitie_load_named_entity_extractor, load_try_block, hopen, hobj, himpl]
      | ok v =>
        cases hde : env.deserialize content with
        | error e =>
          refine ⟨none, ?_, by simp, by simp, by simp, ?_⟩
          · cases e <;>
              simp [mitie_load_named_entity_extractor, load_try_block, hopen, hobj, himpl,
                hde]
          · intro c impl2 hc _ _ hd
            cases Option.some.inj hc
            rw [hde] at hd
            cases hd
        | ok impl =>
          refine ⟨some { type := MITIE_NAMED_ENTITY_EXTRACTOR, impl := impl }, ?_,
            by simp, ?_, ?_, ?_⟩
          · simp [mitie_load_named_entity_extractor, load_try_block, hopen, hobj, himpl, hde]
          · intro c e hc he
            cases Option.some.inj hc
            rw [hde] at he
            cases he
          · intro h hh
            cases Option.some.inj hh
            exact ⟨rfl, content, rfl, hde⟩
          · intro c impl2 hc _ _ hd
            cases Option.some.inj hc
            rw [hde] at hd
            cases hd
            rfl

/-- Witness of C10: a file system without any file. -/
theorem load_returns_null_on_failure_witness :
    ∃ r : Option mitie_named_entity_extractor,
      mitie_load_named_entity_extractor
        ⟨fun _ => none, fun _ => Except.error Thrown.other, Except.ok (), Except.ok ()⟩
        "missing.dat" = Except.ok r ∧
      r = none :=
  (load_returns_null_on_failure
      ⟨fun _ => none, fun _ => Except.error Thrown.other, Except.ok (), Except.ok ()⟩
      "missing.dat").elim
    (fun r h => ⟨r, h.1, h.2.1 rfl⟩)

/-! ## Lemmas on the tagging loops of `tag_conll_file` -/

theorem store_B_eq (L : NerLabels) (pj : Nat) (labels : List BIO_label) (k : Nat) :
    store_B L pj labels k =
      match B_tag L pj with
      | some v => store labels k v
      | none => some labels := by
  unfold store_B B_tag
  split_ifs <;> rfl

theorem store_I_eq (L : NerLabels) (pj : Nat) (labels : List BIO_label) (k : Nat) :
    store_I L pj labels k =
      match I_tag L pj with
      | some v => store labels k v
      | none => some labels := by
  unfold store_I I_tag
  split_ifs <;> rfl

theorem continues_previous_eq (ranges : List Span) (predicted_labels : List Nat)
    (hlen : predicted_labels.length = ranges.length) (j : Nat) (hj : j < ranges.length) :
    continues_previous ranges predicted_labels j ranges[j] predicted_labels[j]
      = some (is_continuation ranges predicted_labels j) := by
  have hj1 : j - 1 < ranges.length := by omega
  have hp : j < predicted_labels.length := by omega
  have hp1 : j - 1 < predicted_labels.length := by omega
  unfold continues_previous is_continuation
  simp only [List.getElem?_eq_getElem hj, List.getElem?_eq_getElem hj1,
    List.getElem?_eq_getElem hp, List.getElem?_eq_getElem hp1]
  by_cases h0 : 0 < j
  · by_cases h1 : ranges[j].1 = ranges[j - 1].2
    · simp [h0, h1]
    · simp [h0, h1]
  · simp [h0]

theorem tag_token_eq (L : NerLabels) (ranges : List Span) (predicted_labels : List Nat)
    (hlen : predicted_labels.length = ranges.length) (j : Nat) (hj : j < ranges.length)
    (k : Nat) (labels : List BIO_label) :
    tag_token L ranges predicted_labels j k labels =
      match span_tag L ranges predicted_labels j with
      | some v => store labels k v
      | none => some labels := by
  have hp : j < predicted_labels.length := by omega
  unfold tag_token span_tag
  simp only [List.getElem?_eq_getElem hj, List.getElem?_eq_getElem hp,
    continues_previous_eq ranges predicted_labels hlen j hj]
  cases is_continuation ranges predicted_labels j with
  | true => simp [store_B_eq]
  | false => simp [store_I_eq]

theorem tag_span_spec (L : NerLabels) (ranges : List Span) (predicted_labels : List Nat)
    (hlen : predicted_labels.length = ranges.length) (j : Nat) (hj : j < ranges.length) :
    ∀ (count k0 : Nat) (labels : List BIO_label),
      (0 < count → k0 + count ≤ labels.length) →
      ∃ out : List BIO_label,
        tag_span L ranges predicted_labels j count k0 labels = some out ∧
        out.length = labels.length ∧
        ∀ k : Nat, out[k]? =
          if k0 ≤ k ∧ k < k0 + count then
            (match span_tag L ranges predicted_labels j with
              | some v => some v
              | none => labels[k]?)
          else labels[k]? := by
  intro count
  induction count with
  | zero =>
    intro k0 labels _
    refine ⟨labels, rfl, rfl, ?_⟩
    intro k
    rw [if_neg (by omega)]
  | succ count ih =>
    intro k0 labels hb
    have hb2 : k0 + (count + 1) ≤ labels.length := hb (by omega)
    have hk0 : k0 < labels.length := by omega
    cases hv : span_tag L ranges predicted_labels j with
    | none =>
      obtain ⟨out, h1, h2, h3⟩ := ih (k0 + 1) labels (by intro _; omega)
      refine ⟨out, ?_, h2, ?_⟩
      · simp only [tag_span, tag_token_eq L ranges predicted_labels hlen j hj, hv]
        exact h1
      · intro k
        have := h3 k
        rw [hv] at this
        rw [this]
        by_cases c1 : k0 + 1 ≤ k ∧ k < k0 + 1 + count
        · have c2 : k0 ≤ k ∧ k < k0 + (count + 1) := by omega
          simp [c1, c2]
        · by_cases c2 : k0 ≤ k ∧ k < k0 + (count + 1)
          · simp [c1, c2]
          · simp [c1, c2]
    | some v =>
      obtain ⟨out, h1, h2, h3⟩ := ih (k0 + 1) (labels.set k0 v)
        (by intro _; simp only [List.length_set]; omega)
      refine ⟨out, ?_, by simpa using h2, ?_⟩
      · simp only [tag_span, tag_token_eq L ranges predicted_labels hlen j hj, hv, store,
          hk0, if_true]
        exact h1
      · intro k
        have := h3 k
        rw [hv] at this
        rw [this]
        by_cases c1 : k0 + 1 ≤ k ∧ k < k0 + 1 + count
        · have c2 : k0 ≤ k ∧ k < k0 + (count + 1) := by omega
          simp [c1, c2]
        · by_cases c3 : k = k0
          · have c2 : k0 ≤ k ∧ k < k0 + (count + 1) := by omega
            subst c3
            simp [c1, c2, List.getElem?_set_self, hk0]
          · have c2 : ¬ (k0 ≤ k ∧ k < k0 + (count + 1)) := by omega
            have c4 : k0 ≠ k := fun h => c3 h.symm
            simp [c1, c2, List.getElem?_set_ne c4]

theorem covers_iff (ranges : List Span) (j k : Nat) (hj : j < ranges.length) :
    covers ranges j k ↔ ranges[j].1 ≤ k ∧ k < ranges[j].2 := by
  unfold covers
  rw [List.getElem?_eq_getElem hj]
  constructor
  · rintro ⟨r, hr, h1, h2⟩
    cases Option.some.inj hr
    exact ⟨h1, h2⟩
  · intro h
    exact ⟨_, rfl, h.1, h.2⟩

theorem covers_lt (ranges : List Span) (j k : Nat) (h : covers ranges j k) :
    j < ranges.length := by
  obtain ⟨r, hr, _, _⟩ := h
  exact (List.getElem?_eq_some.mp hr).1

/-- The invariant of the loop over the spans: a token keeps its tag unless a span
from `j` on covers it and stores a tag, and carries the tag of the last span that
covers it. -/
theorem tag_spans_spec (L : NerLabels) (ranges : List Span) (predicted_labels : List Nat)
    (hlen : predicted_labels.length = ranges.length) (n : Nat)
    (hb : ∀ r ∈ ranges, r.2 ≤ n) :
    ∀ (count j : Nat) (labels : List BIO_label),
      j + count = ranges.length → labels.length = n →
      ∃ out : List BIO_label,
        tag_spans L ranges predicted_labels count j labels = some out ∧
        out.length = n ∧
        ∀ k : Nat,
          ((∀ j2 : Nat, j ≤ j2 → covers ranges j2 k →
              span_tag L ranges predicted_labels j2 = none) → out[k]? = labels[k]?) ∧
          (∀ (j2 : Nat) (v : BIO_label), j ≤ j2 → covers ranges j2 k →
              span_tag L ranges predicted_labels j2 = some v →
              (∀ j3 : Nat, j2 < j3 → ¬ covers ranges j3 k) → out[k]? = some v) := by
  intro count
  induction count with
  | zero =>
    intro j labels hj hl
    refine ⟨labels, rfl, hl, ?_⟩
    intro k
    refine ⟨fun _ => rfl, ?_⟩
    intro j2 v h1 h2 _ _
    have := covers_lt ranges j2 k h2
    omega
  | succ count ih =>
    intro j labels hj hl
    have hjl : j < ranges.length := by omega
    have hrb := hb ranges[j] (List.getElem_mem hjl)
    obtain ⟨mid, hm1, hm2, hm3⟩ :=
      tag_span_spec L ranges predicted_labels hlen j hjl (ranges[j].2 - ranges[j].1)
        ranges[j].1 labels (by intro _; omega)
    obtain ⟨out, ho1, ho2, ho3⟩ := ih (j + 1) mid (by omega) (by omega)
    refine ⟨out, ?_, ho2, ?_⟩
    · simp only [tag_spans, List.getElem?_eq_getElem hjl, hm1, ho1]
    · intro k
      have hmid := hm3 k
      have hcond : (ranges[j].1 ≤ k ∧ k < ranges[j].1 + (ranges[j].2 - ranges[j].1))
          ↔ covers ranges j k := by
        rw [covers_iff ranges j k hjl]
        omega
      refine ⟨?_, ?_⟩
      · intro hnone
        rw [(ho3 k).1 (fun j2 h1 h2 => hnone j2 (by omega) h2), hmid]
        by_cases hc : covers ranges j k
        · rw [if_pos (hcond.mpr hc), hnone j (Nat.le_refl _) hc]
        · rw [if_neg (fun h => hc (hcond.mp h))]
      · intro j2 v h1 h2 h3 h4
        rcases Nat.eq_or_lt_of_le h1 with heq | hlt
        · subst heq
          rw [(ho3 k).1 (fun j3 h5 h6 => absurd h6 (h4 j3 (by omega))), hmid,
            if_pos (hcond.mpr h2), h3]
        · exact (ho3 k).2 j2 v (by omega) h2 h3 h4

/-- The loops of `tag_sentence` never leave the sentence when the spans lie within
it and there are as many predicted labels as spans. -/
theorem tag_sentence_spec (L : NerLabels) (ranges : List Span) (predicted_labels : List Nat)
    (labels : List BIO_label)
    (hlen : predicted_labels.length = ranges.length)
    (hb : ∀ r ∈ ranges, r.2 ≤ labels.length) :
    ∃ out : List BIO_label,
      tag_sentence L ranges predicted_labels labels = some out ∧
      out.length = labels.length ∧
      ∀ k : Nat, k < labels.length →
        ((∀ j2 : Nat, covers ranges j2 k →
            span_tag L ranges predicted_labels j2 = none) → out[k]? = some BIO_label.O) ∧
        (∀ (j2 : Nat) (v : BIO_label), covers ranges j2 k →
            span_tag L ranges predicted_labels j2 = some v →
            (∀ j3 : Nat, j2 < j3 → ¬ covers ranges j3 k) → out[k]? = some v) := by
  obtain ⟨out, h1, h2, h3⟩ :=
    tag_spans_spec L ranges predicted_labels hlen labels.length hb ranges.length 0
      (List.replicate labels.length BIO_label.O) (by omega) (by simp)
  refine ⟨out, h1, h2, ?_⟩
  intro k hk
  refine ⟨?_, ?_⟩
  · intro hnone
    rw [(h3 k).1 (fun j2 _ h => hnone j2 h)]
    simp [List.getElem?_replicate, hk]
  · intro j2 v hc hv hlast
    exact (h3 k).2 j2 v (Nat.zero_le _) hc hv hlast

theorem not_covered_later (ranges : List Span)
    (hdisj : ranges.Pairwise (fun a b => a.2 ≤ b.1 ∨ b.2 ≤ a.1))
    (j j3 k : Nat) (hc : covers ranges j k) (hlt : j < j3) : ¬ covers ranges j3 k := by
  intro hc3
  have h1 := covers_lt ranges j k hc
  have h3 := covers_lt ranges j3 k hc3
  have hp := List.pairwise_iff_getElem.mp hdisj j j3 h1 h3 hlt
  rw [covers_iff ranges j k h1] at hc
  rw [covers_iff ranges j3 k h3] at hc3
  omega

theorem span_tag_fresh (L : NerLabels) (ranges : List Span) (predicted_labels : List Nat)
    (j : Nat) (r : Span) (pl : Nat)
    (hr : ranges[j]? = some r) (hp : predicted_labels[j]? = some pl)
    (hfresh : ∀ (rp : Span) (pp : Nat), 0 < j → ranges[j - 1]? = some rp →
      predicted_labels[j - 1]? = some pp → r.1 ≠ rp.2 ∨ pl ≠ pp) :
    span_tag L ranges predicted_labels j = I_tag L pl := by
  have hc : is_continuation ranges predicted_labels j = false := by
    unfold is_continuation
    rw [hr, hp]
    cases h1 : ranges[j - 1]? with
    | none => rfl
    | some rp =>
      cases h2 : predicted_labels[j - 1]? with
      | none => rfl
      | some pp =>
        by_cases h0 : 0 < j
        · rcases hfresh rp pp h0 h1 h2 with h | h
          · simp [h]
          · simp [h]
        · simp [h0]
  simp [span_tag, hp, hc]

theorem span_tag_continuation (L : NerLabels) (ranges : List Span)
    (predicted_labels : List Nat) (j : Nat) (rp r : Span) (pl : Nat)
    (hrp : ranges[j]? = some rp) (hr : ranges[j + 1]? = some r) (hadj : r.1 = rp.2)
    (hpp : predicted_labels[j]? = some pl) (hp : predicted_labels[j + 1]? = some pl) :
    span_tag L ranges predicted_labels (j + 1) = B_tag L pl := by
  have hc : is_continuation ranges predicted_labels (j + 1) = true := by
    unfold is_continuation
    simp [hr, hp, hrp, hpp, hadj]
  simp [span_tag, hp, hc]

/-! ## The tags that `tag_conll_file` writes -/

/-- Counterexample to C5: one span `[0, 2)` labelled `PER` in a sentence of two
tokens is tagged `I_PER I_PER`; its first token is not tagged `B_PER`. -/
theorem tag_sentence_first_span_not_B :
    tag_sentence ⟨0, 1, 2, 3, 4⟩ [(0, 2)] [0] [BIO_label.O, BIO_label.O]
      = some [BIO_label.I_PER, BIO_label.I_PER] ∧
    ¬ (∃ out : List BIO_label,
        tag_sentence ⟨0, 1, 2, 3, 4⟩ [(0, 2)] [0] [BIO_label.O, BIO_label.O] = some out ∧
        out[0]? = some BIO_label.B_PER ∧ out[1]? = some BIO_label.I_PER) := by
  have h : tag_sentence ⟨0, 1, 2, 3, 4⟩ [(0, 2)] [0] [BIO_label.O, BIO_label.O]
      = some [BIO_label.I_PER, BIO_label.I_PER] := by decide
  refine ⟨h, ?_⟩
  rintro ⟨out, h1, h2, _⟩
  rw [h] at h1
  cases Option.some.inj h1
  exact absurd h2 (by decide)

/-- C5 (amended): for spans within the sentence that do not overlap, a span with
predicted label `L` in `{PER, ORG, LOC, MISC}` that is the first span, or does not
begin where the previous span ended, or carries a label different from the
previous span's, has every one of its tokens, the first included, tagged `I_L`. -/
theorem tag_sentence_fresh_span_inside (L : NerLabels) (ranges : List Span)
    (predicted_labels : List Nat) (labels : List BIO_label)
    (hlen : predicted_labels.length = ranges.length)
    (hb : ∀ r ∈ ranges, r.2 ≤ labels.length)
    (hdisj : ranges.Pairwise (fun a b => a.2 ≤ b.1 ∨ b.2 ≤ a.1))
    (j : Nat) (r : Span) (pl : Nat) (v : BIO_label)
    (hr : ranges[j]? = some r) (hp : predicted_labels[j]? = some pl)
    (hv : I_tag L pl = some v)
    (hfresh : ∀ (rp : Span) (pp : Nat), 0 < j → ranges[j - 1]? = some rp →
      predicted_labels[j - 1]? = some pp → r.1 ≠ rp.2 ∨ pl ≠ pp) :
    ∃ out : List BIO_label,
      tag_sentence L ranges predicted_labels labels = some out ∧
      out.length = labels.length ∧
      ∀ k : Nat, r.1 ≤ k → k < r.2 → out[k]? = some v := by
  obtain ⟨out, h1, h2, h3⟩ := tag_sentence_spec L ranges predicted_labels labels hlen hb
  refine ⟨out, h1, h2, ?_⟩
  intro k hk1 hk2
  have hk : k < labels.length := by
    have := hb r (List.getElem?_mem hr)
    omega
  have hc : covers ranges j k := ⟨r, hr, hk1, hk2⟩
  refine (h3 k hk).2 j v hc ?_ (fun j3 hlt => not_covered_later ranges hdisj j j3 k hc hlt)
  rw [span_tag_fresh L ranges predicted_labels j r pl hr hp hfresh, hv]

/-- Witness of C5 (amended): spans `[0, 1)` `PER` and `[1, 3)` `ORG`, the second one
adjacent to the first with a different label. -/
theorem tag_sentence_fresh_span_inside_witness :
    ∃ out : List BIO_label,
      tag_sentence ⟨0, 1, 2, 3, 4⟩ [(0, 1), (1, 3)] [0, 2]
        [BIO_label.O, BIO_label.O, BIO_label.O] = some out ∧
      out.length = [BIO_label.O, BIO_label.O, BIO_label.O].length ∧
      ∀ k : Nat, ((1 : Nat), (3 : Nat)).1 ≤ k → k < ((1 : Nat), (3 : Nat)).2 →
        out[k]? = some BIO_label.I_ORG :=
  tag_sentence_fresh_span_inside ⟨0, 1, 2, 3, 4⟩ [(0, 1), (1, 3)] [0, 2]
    [BIO_label.O, BIO_label.O, BIO_label.O] rfl (by decide) (by decide)
    1 (1, 3) 2 BIO_label.I_ORG rfl rfl (by decide)
    (by
      intro rp pp _ h1 h2
      right
      have h2b : some 0 = some pp := h2
      cases Option.some.inj h2b
      decide)

/-- Counterexample to C6: spans `[0, 1)` and `[1, 3)`, both `PER`, are tagged
`I_PER B_PER B_PER`, not `B_PER I_PER I_PER`: the first token of the second span
is `B_PER`. -/
theorem tag_sentence_adjacent_same_label :
    tag_sentence ⟨0, 1, 2, 3, 4⟩ [(0, 1), (1, 3)] [0, 0]
        [BIO_label.O, BIO_label.O, BIO_label.O]
      = some [BIO_label.I_PER, BIO_label.B_PER, BIO_label.B_PER] ∧
    tag_sentence ⟨0, 1, 2, 3, 4⟩ [(0, 1), (1, 3)] [0, 0]
        [BIO_label.O, BIO_label.O, BIO_label.O]
      ≠ some [BIO_label.B_PER, BIO_label.I_PER, BIO_label.I_PER] := by
  constructor <;> decide

/-- C6 (amended): for spans within the sentence that do not overlap, when span
`j+1` begins exactly where span `j` ends and both carry the same predicted label
`L` in `{PER, ORG, LOC, MISC}`, the first token of span `j+1` is tagged `B_L`; and
when span `j` does not itself continue its predecessor in this way, every token of
span `j` is tagged `I_L`. -/
theorem tag_sentence_continuation_begins (L : NerLabels) (ranges : List Span)
    (predicted_labels : List Nat) (labels : List BIO_label)
    (hlen : predicted_labels.length = ranges.length)
    (hb : ∀ r ∈ ranges, r.2 ≤ labels.length)
    (hdisj : ranges.Pairwise (fun a b => a.2 ≤ b.1 ∨ b.2 ≤ a.1))
    (j : Nat) (rp r : Span) (pl : Nat) (b i : BIO_label)
    (hrp : ranges[j]? = some rp) (hr : ranges[j + 1]? = some r)
    (hadj : r.1 = rp.2) (hne : r.1 < r.2)
    (hpp : predicted_labels[j]? = some pl) (hp : predicted_labels[j + 1]? = some pl)
    (hB : B_tag L pl = some b) (hI : I_tag L pl = some i) :
    ∃ out : List BIO_label,
      tag_sentence L ranges predicted_labels labels = some out ∧
      out.length = labels.length ∧
      out[r.1]? = some b ∧
      ((∀ (rq : Span) (pq : Nat), 0 < j → ranges[j - 1]? = some rq →
          predicted_labels[j - 1]? = some pq → rp.1 ≠ rq.2 ∨ pl ≠ pq) →
        ∀ k : Nat, rp.1 ≤ k → k < rp.2 → out[k]? = some i) := by
  obtain ⟨out, h1, h2, h3⟩ := tag_sentence_spec L ranges predicted_labels labels hlen hb
  refine ⟨out, h1, h2, ?_, ?_⟩
  · have hk : r.1 < labels.length := by
      have := hb r (List.getElem?_mem hr)
      omega
    have hc : covers ranges (j + 1) r.1 := ⟨r, hr, Nat.le_refl _, hne⟩
    refine (h3 r.1 hk).2 (j + 1) b hc ?_
      (fun j3 hlt => not_covered_later ranges hdisj (j + 1) j3 r.1 hc hlt)
    rw [span_tag_continuation L ranges predicted_labels j rp r pl hrp hr hadj hpp hp, hB]
  · intro hfresh k hk1 hk2
    have hk : k < labels.length := by
      have := hb rp (List.getElem?_mem hrp)
      omega
    have hc : covers ranges j k := ⟨rp, hrp, hk1, hk2⟩
    refine (h3 k hk).2 j i hc ?_ (fun j3 hlt => not_covered_later ranges hdisj j j3 k hc hlt)
    rw [span_tag_fresh L ranges predicted_labels j rp pl hrp hpp hfresh, hI]

/-- Witness of C6 (amended): spans `[0, 1)` and `[1, 3)`, both `PER`. -/
theorem tag_sentence_continuation_begins_witness :
    ∃ out : List BIO_label,
      tag_sentence ⟨0, 1, 2, 3, 4⟩ [(0, 1), (1, 3)] [0, 0]
        [BIO_label.O, BIO_label.O, BIO_label.O] = some out ∧
      out.length = [BIO_label.O, BIO_label.O, BIO_label.O].length ∧
      out[((1 : Nat), (3 : Nat)).1]? = some BIO_label.B_PER ∧
      ((∀ (rq : Span) (pq : Nat), 0 < 0 → [((0 : Nat), (1 : Nat)), (1, 3)][0 - 1]? = some rq →
          [0, 0][0 - 1]? = some pq → ((0 : Nat), (1 : Nat)).1 ≠ rq.2 ∨ 0 ≠ pq) →
        ∀ k : Nat, ((0 : Nat), (1 : Nat)).1 ≤ k → k < ((0 : Nat), (1 : Nat)).2 →
          out[k]? = some BIO_label.I_PER) :=
  tag_sentence_continuation_begins ⟨0, 1, 2, 3, 4⟩ [(0, 1), (1, 3)] [0, 0]
    [BIO_label.O, BIO_label.O, BIO_label.O] rfl (by decide) (by decide)
    0 (0, 1) (1, 3) 0 BIO_label.B_PER BIO_label.I_PER rfl rfl rfl (by decide) rfl rfl
    (by decide) (by decide)

/-- C7: when the spans returned for a sentence lie within it (and there are as
many predicted labels as spans), the conversion returns a tag sequence of the
length of the sentence in which every token that lies in none of the spans is
tagged `O`, whatever tags `labels` held before. -/
theorem tag_sentence_outside_is_O (L : NerLabels) (ranges : List Span)
    (predicted_labels : List Nat) (labels : List BIO_label)
    (hlen : predicted_labels.length = ranges.length)
    (hb : ∀ r ∈ ranges, r.2 ≤ labels.length) :
    ∃ out : List BIO_label,
      tag_sentence L ranges predicted_labels labels = some out ∧
      out.length = labels.length ∧
      ∀ k : Nat, k < labels.length → (∀ r ∈ ranges, ¬ (r.1 ≤ k ∧ k < r.2)) →
        out[k]? = some BIO_label.O := by
  obtain ⟨out, h1, h2, h3⟩ := tag_sentence_spec L ranges predicted_labels labels hlen hb
  refine ⟨out, h1, h2, ?_⟩
  intro k hk hout
  refine (h3 k hk).1 ?_
  intro j2 hc
  obtain ⟨r, hr, hr1, hr2⟩ := hc
  exact absurd ⟨hr1, hr2⟩ (hout r (List.getElem?_mem hr))

/-- Witness of C7: the span `[1, 2)` in a sentence whose file tags were
`B_LOC I_LOC B_ORG`. -/
theorem tag_sentence_outside_is_O_witness :
    ∃ out : List BIO_label,
      tag_sentence ⟨0, 1, 2, 3, 4⟩ [(1, 2)] [0]
        [BIO_label.B_LOC, BIO_label.I_LOC, BIO_label.B_ORG] = some out ∧
      out.length = [BIO_label.B_LOC, BIO_label.I_LOC, BIO_label.B_ORG].length ∧
      ∀ k : Nat, k < [BIO_label.B_LOC, BIO_label.I_LOC, BIO_label.B_ORG].length →
        (∀ r ∈ [((1 : Nat), (2 : Nat))], ¬ (r.1 ≤ k ∧ k < r.2)) →
        out[k]? = some BIO_label.O :=
  tag_sentence_outside_is_O ⟨0, 1, 2, 3, 4⟩ [(1, 2)] [0]
    [BIO_label.B_LOC, BIO_label.I_LOC, BIO_label.B_ORG] rfl (by decide)

/-! ## Lemmas on reading tags back -/

theorem I_tag_props (L : NerLabels) (l : Nat) (v : BIO_label) (h : I_tag L l = some v) :
    tag_label L v = some l ∧ is_B v = false ∧ v ≠ BIO_label.O := by
  unfold I_tag at h
  split_ifs at h with h1 h2 h3 h4 <;> cases Option.some.inj h
  · exact ⟨by simp [tag_label, h1], rfl, by decide⟩
  · exact ⟨by simp [tag_label, h2], rfl, by decide⟩
  · exact ⟨by simp [tag_label, h3], rfl, by decide⟩
  · exact ⟨by simp [tag_label, h4], rfl, by decide⟩

theorem I_tag_of_entity (L : NerLabels) (l : Nat)
    (h : l = L.PER ∨ l = L.ORG ∨ l = L.LOC ∨ l = L.MISC) : ∃ v, I_tag L l = some v := by
  unfold I_tag
  split_ifs with h1 h2 h3 h4
  · exact ⟨_, rfl⟩
  · exact ⟨_, rfl⟩
  · exact ⟨_, rfl⟩
  · exact ⟨_, rfl⟩
  · rcases h with h | h | h | h <;> contradiction

theorem read_skip_O (L : NerLabels) :
    ∀ (m : Nat) (ts : List BIO_label) (p : Nat),
      read_spans_I_run L (List.replicate m BIO_label.O ++ ts) p none
        = read_spans_I_run L ts (p + m) none := by
  intro m
  induction m with
  | zero => intro ts p; simp
  | succ m ih =>
    intro ts p
    rw [List.replicate_succ, List.cons_append, read_spans_I_run, if_pos rfl, ih]
    simp only [close_span, List.nil_append]
    congr 1
    omega

theorem read_run (L : NerLabels) (v : BIO_label) (hB : is_B v = false)
    (hO : v ≠ BIO_label.O) :
    ∀ (m : Nat) (ts : List BIO_label) (p s : Nat),
      read_spans_I_run L (List.replicate m v ++ ts) p (some (s, v))
        = read_spans_I_run L ts (p + m) (some (s, v)) := by
  intro m
  induction m with
  | zero => intro ts p s; simp
  | succ m ih =>
    intro ts p s
    rw [List.replicate_succ, List.cons_append, read_spans_I_run, if_neg hO]
    simp only [hB, Bool.false_eq_true, if_false, Option.map_some', if_true]
    rw [ih]
    congr 1
    omega

theorem read_start (L : NerLabels) (v : BIO_label) (hB : is_B v = false)
    (hO : v ≠ BIO_label.O) (ts : List BIO_label) (p : Nat) :
    read_spans_I_run L (v :: ts) p none = read_spans_I_run L ts (p + 1) (some (p, v)) := by
  rw [read_spans_I_run, if_neg hO]
  simp [hB, close_span]

theorem read_close (L : NerLabels) (ts : List BIO_label) (p : Nat)
    (cur : Option (Nat × BIO_label))
    (h : ts = [] ∨ ∃ rest, ts = BIO_label.O :: rest) :
    read_spans_I_run L ts p cur = close_span L cur p ++ read_spans_I_run L ts p none := by
  rcases h with h | ⟨rest, h⟩
  · subst h
    simp [read_spans_I_run, close_span]
  · subst h
    simp [read_spans_I_run, close_span]

theorem render_head (L : NerLabels) (S : List (Span × Nat)) (p n : Nat)
    (h : ∀ x ∈ S, p < x.1.1) :
    render L S p n = [] ∨ ∃ rest, render L S p n = BIO_label.O :: rest := by
  cases S with
  | nil =>
    simp only [render]
    cases n - p with
    | zero => left; rfl
    | succ m => right; exact ⟨_, List.replicate_succ _ _⟩
  | cons x rest =>
    obtain ⟨r, l⟩ := x
    have hx : p < r.1 := h (r, l) (List.mem_cons_self _ _)
    right
    simp only [render]
    obtain ⟨m, hm⟩ : ∃ m, r.1 - p = m + 1 := ⟨r.1 - p - 1, by omega⟩
    rw [hm, List.replicate_succ]
    exact ⟨_, List.cons_append _ _ _⟩

/-- Reading the rendered tags of spans listed in increasing order, with a gap
between any two, gives the spans back. -/
theorem read_render (L : NerLabels) (n : Nat) :
    ∀ (S : List (Span × Nat)) (p : Nat),
      (∀ x ∈ S, x.1.1 < x.1.2 ∧ ∃ v, I_tag L x.2 = some v) →
      S.Pairwise (fun a b => a.1.2 < b.1.1) →
      (∀ x ∈ S, p ≤ x.1.1) →
      read_spans_I_run L (render L S p n) p none = S := by
  intro S
  induction S with
  | nil =>
    intro p _ _ _
    have := read_skip_O L (n - p) [] p
    simp only [List.append_nil] at this
    simp [render, this, read_spans_I_run, close_span]
  | cons x rest ih =>
    intro p hS hpw hp
    obtain ⟨r, l⟩ := x
    obtain ⟨hr, v, hv⟩ := hS (r, l) (List.mem_cons_self _ _)
    obtain ⟨hlab, hB, hO⟩ := I_tag_props L l v hv
    have hpr : p ≤ r.1 := hp (r, l) (List.mem_cons_self _ _)
    rw [List.pairwise_cons] at hpw
    obtain ⟨hgap, hpw2⟩ := hpw
    simp only at hr hpr
    have hrest : read_spans_I_run L (render L rest r.2 n) r.2 none = rest :=
      ih r.2 (fun y hy => hS y (List.mem_cons_of_mem _ hy)) hpw2
        (fun y hy => Nat.le_of_lt (hgap y hy))
    have hhead := render_head L rest r.2 n (fun y hy => hgap y hy)
    obtain ⟨m, hm⟩ : ∃ m, r.2 - r.1 = m + 1 := ⟨r.2 - r.1 - 1, by omega⟩
    simp only [render, hv, Option.getD_some, List.append_assoc]
    rw [read_skip_O, hm, List.replicate_succ, List.cons_append,
      read_start L v hB hO, read_run L v hB hO]
    have e1 : p + (r.1 - p) = r.1 := by omega
    have e2 : r.1 + 1 + m = r.2 := by omega
    rw [e1, e2, read_close L _ r.2 _ hhead, hrest]
    simp [close_span, hlab]

theorem render_length (L : NerLabels) (n : Nat) :
    ∀ (S : List (Span × Nat)) (p : Nat),
      (∀ x ∈ S, x.1.1 < x.1.2 ∧ x.1.2 ≤ n) →
      S.Pairwise (fun a b => a.1.2 < b.1.1) →
      (∀ x ∈ S, p ≤ x.1.1) → p ≤ n →
      (render L S p n).length = n - p := by
  intro S
  induction S with
  | nil => intro p _ _ _ _; simp [render]
  | cons x rest ih =>
    intro p hS hpw hp hpn
    obtain ⟨r, l⟩ := x
    have hr := hS (r, l) (List.mem_cons_self _ _)
    have hpr : p ≤ r.1 := hp (r, l) (List.mem_cons_self _ _)
    rw [List.pairwise_cons] at hpw
    simp only at hr
    have := ih r.2 (fun y hy => hS y (List.mem_cons_of_mem _ hy)) hpw.2
      (fun y hy => Nat.le_of_lt (hpw.1 y hy)) hr.2
    simp only [render, List.length_append, List.length_replicate, this]
    omega

/-- The rendered tag of token `k`: the `I_` tag of the span that holds `k`, and `O`
when no span holds it. -/
theorem render_getElem (L : NerLabels) (n : Nat) :
    ∀ (S : List (Span × Nat)) (p : Nat),
      (∀ x ∈ S, x.1.1 < x.1.2 ∧ x.1.2 ≤ n) →
      S.Pairwise (fun a b => a.1.2 < b.1.1) →
      (∀ x ∈ S, p ≤ x.1.1) →
      ∀ k : Nat, p ≤ k → k < n →
        (∀ x ∈ S, x.1.1 ≤ k → k < x.1.2 →
          (render L S p n)[k - p]? = some ((I_tag L x.2).getD BIO_label.O)) ∧
        ((∀ x ∈ S, ¬ (x.1.1 ≤ k ∧ k < x.1.2)) →
          (render L S p n)[k - p]? = some BIO_label.O) := by
  intro S
  induction S with
  | nil =>
    intro p _ _ _ k hk hkn
    refine ⟨fun x hx => absurd hx (List.not_mem_nil _), fun _ => ?_⟩
    simp only [render, List.getElem?_replicate]
    rw [if_pos (by omega)]
  | cons x rest ih =>
    intro p hS hpw hp k hk hkn
    obtain ⟨r, l⟩ := x
    have hr := hS (r, l) (List.mem_cons_self _ _)
    have hpr : p ≤ r.1 := hp (r, l) (List.mem_cons_self _ _)
    rw [List.pairwise_cons] at hpw
    obtain ⟨hgap, hpw2⟩ := hpw
    simp only at hr hpr
    have hih := ih r.2 (fun y hy => hS y (List.mem_cons_of_mem _ hy)) hpw2
      (fun y hy => Nat.le_of_lt (hgap y hy))
    have htail : r.2 ≤ k →
        (render L ((r, l) :: rest) p n)[k - p]? = (render L rest r.2 n)[k - r.2]? := by
      intro h2
      simp only [render]
      rw [List.getElem?_append_right (by simp; omega)]
      simp only [List.length_append, List.length_replicate]
      congr 1
      omega
    have hmid : r.1 ≤ k → k < r.2 →
        (render L ((r, l) :: rest) p n)[k - p]?
          = some ((I_tag L l).getD BIO_label.O) := by
      intro h1 h2
      simp only [render]
      rw [List.getElem?_append_left (by simp; omega),
        List.getElem?_append_right (by simp; omega)]
      simp only [List.length_replicate, List.getElem?_replicate]
      rw [if_pos (by omega)]
    have hfront : k < r.1 →
        (render L ((r, l) :: rest) p n)[k - p]? = some BIO_label.O := by
      intro h1
      simp only [render]
      rw [List.getElem?_append_left (by simp; omega),
        List.getElem?_append_left (by simp; omega)]
      simp only [List.getElem?_replicate]
      rw [if_pos (by omega)]
    refine ⟨?_, ?_⟩
    · intro y hy h1 h2
      rcases List.mem_cons.mp hy with rfl | hy
      · exact hmid h1 h2
      · have hg := hgap y hy
        simp only at hg
        rw [htail (by omega)]
        exact (hih k (by omega) hkn).1 y hy h1 h2
    · intro hnone
      have h0 := hnone (r, l) (List.mem_cons_self _ _)
      simp only at h0
      rcases Nat.lt_or_ge k r.1 with h1 | h1
      · exact hfront h1
      · have h2 : r.2 ≤ k := by omega
        rw [htail h2]
        exact (hih k h2 hkn).2 (fun y hy => hnone y (List.mem_cons_of_mem _ hy))

theorem pairwise_zip_of_ranges (ranges : List Span) (predicted_labels : List Nat)
    (hlen : predicted_labels.length = ranges.length) (R : Span → Span → Prop)
    (h : ranges.Pairwise R) :
    (ranges.zip predicted_labels).Pairwise (fun a b => R a.1 b.1) := by
  have hmap : (ranges.zip predicted_labels).map Prod.fst = ranges :=
    List.map_fst_zip _ _ (by omega)
  rw [← hmap] at h
  exact List.pairwise_map.mp h

/-- The tags written for spans that neither overlap nor touch are the rendered
tags of the spans sorted by their begin. -/
theorem tag_sentence_eq_render (L : NerLabels) (ranges : List Span)
    (predicted_labels : List Nat) (labels : List BIO_label)
    (hlen : predicted_labels.length = ranges.length)
    (hb : ∀ r ∈ ranges, r.1 < r.2 ∧ r.2 ≤ labels.length)
    (hgap : ranges.Pairwise (fun a b => a.2 < b.1 ∨ b.2 < a.1))
    (hent : ∀ l ∈ predicted_labels, l = L.PER ∨ l = L.ORG ∨ l = L.LOC ∨ l = L.MISC)
    (S : List (Span × Nat)) (hperm : S.Perm (ranges.zip predicted_labels))
    (hS : S.Pairwise (fun a b => a.1.2 < b.1.1)) :
    tag_sentence L ranges predicted_labels labels = some (render L S 0 labels.length) := by
  obtain ⟨out, h1, h2, h3⟩ :=
    tag_sentence_spec L ranges predicted_labels labels hlen (fun r hr => (hb r hr).2)
  have hSb : ∀ x ∈ S, x.1.1 < x.1.2 ∧ x.1.2 ≤ labels.length := by
    intro x hx
    have hz := hperm.mem_iff.mp hx
    obtain ⟨a, b⟩ := x
    exact hb a (List.of_mem_zip hz).1
  have hdisj : ranges.Pairwise (fun a b => a.2 ≤ b.1 ∨ b.2 ≤ a.1) :=
    hgap.imp (fun h => by omega)
  have hrl := render_length L labels.length S 0 hSb hS (fun _ _ => Nat.zero_le _)
    (Nat.zero_le _)
  rw [h1]
  congr 1
  apply List.ext_getElem?
  intro k
  rcases Nat.lt_or_ge k labels.length with hk | hk
  · have hren := render_getElem L labels.length S 0 hSb hS (fun _ _ => Nat.zero_le _)
      k (Nat.zero_le _) hk
    rw [Nat.sub_zero] at hren
    by_cases hc : ∃ j, covers ranges j k
    · obtain ⟨j, hcj⟩ := hc
      have hj := covers_lt ranges j k hcj
      have hjp : j < predicted_labels.length := by omega
      have hcj2 := (covers_iff ranges j k hj).mp hcj
      have hz : (ranges.zip predicted_labels)[j]? = some (ranges[j], predicted_labels[j]) :=
        List.getElem?_zip_eq_some.mpr
          ⟨List.getElem?_eq_getElem hj, List.getElem?_eq_getElem hjp⟩
      have hmS : (ranges[j], predicted_labels[j]) ∈ S :=
        hperm.mem_iff.mpr (List.getElem?_mem hz)
      obtain ⟨v, hv⟩ := I_tag_of_entity L predicted_labels[j]
        (hent _ (List.getElem_mem hjp))
      rw [(hren.1 _ hmS hcj2.1 hcj2.2), hv, Option.getD_some]
      refine (h3 k hk).2 j v hcj ?_
        (fun j3 hlt => not_covered_later ranges hdisj j j3 k hcj hlt)
      rw [span_tag_fresh L ranges predicted_labels j ranges[j] predicted_labels[j]
        (List.getElem?_eq_getElem hj) (List.getElem?_eq_getElem hjp) ?_, hv]
      intro rp pp h0 hrp _
      left
      have hj1 : j - 1 < ranges.length := by omega
      have hg := List.pairwise_iff_getElem.mp hgap (j - 1) j hj1 hj (by omega)
      have e : ranges[j - 1] = rp := by
        rw [List.getElem?_eq_getElem hj1] at hrp
        exact Option.some.inj hrp
      rw [e] at hg
      have hb1 := hb rp (List.getElem?_mem hrp)
      have hb2 := hb ranges[j] (List.getElem_mem hj)
      omega
    · have hno : ∀ x ∈ S, ¬ (x.1.1 ≤ k ∧ k < x.1.2) := by
        intro x hx hcov
        obtain ⟨j, hj⟩ := List.mem_iff_getElem?.mp (hperm.mem_iff.mp hx)
        have := (List.getElem?_zip_eq_some.mp hj).1
        exact hc ⟨j, x.1, this, hcov.1, hcov.2⟩
      rw [hren.2 hno]
      exact (h3 k hk).1 (fun j2 hc2 => absurd ⟨j2, hc2⟩ hc)
  · rw [List.getElem?_eq_none (by omega), List.getElem?_eq_none (by omega)]

/-! ## Round trip through the tags -/

/-- Counterexample to C8: the single span `[0, 1)` labelled `PER` is tagged
`I_PER`, which holds no `B_` tag; read back as "each `B_L` followed by its run of
`I_L` tokens", the tags yield no span at all. -/
theorem round_trip_B_then_I_fails :
    tag_sentence ⟨0, 1, 2, 3, 4⟩ [(0, 1)] [0] [BIO_label.O] = some [BIO_label.I_PER] ∧
    read_spans_B_then_I ⟨0, 1, 2, 3, 4⟩ [BIO_label.I_PER] 0 none = [] ∧
    ¬ (∃ out : List BIO_label,
        tag_sentence ⟨0, 1, 2, 3, 4⟩ [(0, 1)] [0] [BIO_label.O] = some out ∧
        read_spans_B_then_I ⟨0, 1, 2, 3, 4⟩ out 0 none = [(0, 1)].zip [0]) := by
  have h : tag_sentence ⟨0, 1, 2, 3, 4⟩ [(0, 1)] [0] [BIO_label.O]
      = some [BIO_label.I_PER] := by decide
  refine ⟨h, by decide, ?_⟩
  rintro ⟨out, h1, h2⟩
  rw [h] at h1
  cases Option.some.inj h1
  exact absurd h2 (by decide)

/-- C8 (amended): for spans `[begin, end)` with `begin < end` within a sentence
that pairwise neither overlap nor touch, with labels in `{PER, ORG, LOC, MISC}`,
the conversion of `tag_conll_file` succeeds and reading its tags back with each
maximal run of `I_L` tokens as one span of label `L` recovers exactly the original
labelled spans, listed in sentence order: the result is a rearrangement of the
input, and is the input itself when the spans were given in sentence order. -/
theorem tag_sentence_round_trip (L : NerLabels) (ranges : List Span)
    (predicted_labels : List Nat) (labels : List BIO_label)
    (hlen : predicted_labels.length = ranges.length)
    (hb : ∀ r ∈ ranges, r.1 < r.2 ∧ r.2 ≤ labels.length)
    (hgap : ranges.Pairwise (fun a b => a.2 < b.1 ∨ b.2 < a.1))
    (hent : ∀ l ∈ predicted_labels, l = L.PER ∨ l = L.ORG ∨ l = L.LOC ∨ l = L.MISC) :
    ∃ out : List BIO_label,
      tag_sentence L ranges predicted_labels labels = some out ∧
      out.length = labels.length ∧
      (read_spans_I_run L out 0 none).Perm (ranges.zip predicted_labels) ∧
      (read_spans_I_run L out 0 none).Pairwise (fun a b => a.1.2 < b.1.1) ∧
      (ranges.Pairwise (fun a b => a.1 ≤ b.1) →
        read_spans_I_run L out 0 none = ranges.zip predicted_labels) := by
  have htot : IsTotal (Span × Nat) (fun a b => a.1.1 ≤ b.1.1) :=
    ⟨fun a b => Nat.le_total a.1.1 b.1.1⟩
  have htr : IsTrans (Span × Nat) (fun a b => a.1.1 ≤ b.1.1) :=
    ⟨fun _ _ _ h1 h2 => Nat.le_trans h1 h2⟩
  have hperm : (List.insertionSort (fun a b : Span × Nat => a.1.1 ≤ b.1.1)
      (ranges.zip predicted_labels)).Perm (ranges.zip predicted_labels) :=
    List.perm_insertionSort _ _
  have hsorted : (List.insertionSort (fun a b : Span × Nat => a.1.1 ≤ b.1.1)
      (ranges.zip predicted_labels)).Pairwise (fun a b => a.1.1 ≤ b.1.1) :=
    List.sorted_insertionSort _ _
  have hzgap := pairwise_zip_of_ranges ranges predicted_labels hlen _ hgap
  have hsgap := (hperm.pairwise_iff (R := fun a b : Span × Nat =>
    a.1.2 < b.1.1 ∨ b.1.2 < a.1.1) (fun h => h.symm)).mpr hzgap
  have hS : (List.insertionSort (fun a b : Span × Nat => a.1.1 ≤ b.1.1)
      (ranges.zip predicted_labels)).Pairwise (fun a b => a.1.2 < b.1.1) := by
    refine (hsorted.and hsgap).imp_of_mem ?_
    intro a b _ hbm h
    have hz := hperm.mem_iff.mp hbm
    obtain ⟨b1, b2⟩ := b
    have := hb b1 (List.of_mem_zip hz).1
    simp only at h this ⊢
    omega
  have hSprops : ∀ x ∈ List.insertionSort (fun a b : Span × Nat => a.1.1 ≤ b.1.1)
      (ranges.zip predicted_labels), x.1.1 < x.1.2 ∧ ∃ v, I_tag L x.2 = some v := by
    intro x hx
    have hz := hperm.mem_iff.mp hx
    obtain ⟨a, b⟩ := x
    exact ⟨(hb a (List.of_mem_zip hz).1).1, I_tag_of_entity L b (hent b (List.of_mem_zip hz).2)⟩
  have hout := tag_sentence_eq_render L ranges predicted_labels labels hlen hb hgap hent
    _ hperm hS
  have hread := read_render L labels.length _ 0 hSprops hS (fun _ _ => Nat.zero_le _)
  have hlength := render_length L labels.length _ 0
    (fun x hx => by
      have hz := hperm.mem_iff.mp hx
      obtain ⟨a, b⟩ := x
      exact hb a (List.of_mem_zip hz).1)
    hS (fun _ _ => Nat.zero_le _) (Nat.zero_le _)
  refine ⟨_, hout, by simpa using hlength, ?_, ?_, ?_⟩
  · rw [hread]; exact hperm
  · rw [hread]; exact hS
  · intro hord
    rw [hread]
    exact List.Sorted.insertionSort_eq
      (pairwise_zip_of_ranges ranges predicted_labels hlen _ hord)

/-- Witness of C8 (amended): spans `[3, 5)` `ORG` and `[0, 2)` `PER` in a sentence
of six tokens, given out of sentence order. -/
theorem tag_sentence_round_trip_witness :
    ∃ out : List BIO_label,
      tag_sentence ⟨0, 1, 2, 3, 4⟩ [(3, 5), (0, 2)] [2, 0]
        (List.replicate 6 BIO_label.B_LOC) = some out ∧
      out.length = (List.replicate 6 BIO_label.B_LOC).length ∧
      (read_spans_I_run ⟨0, 1, 2, 3, 4⟩ out 0 none).Perm ([(3, 5), (0, 2)].zip [2, 0]) ∧
      (read_spans_I_run ⟨0, 1, 2, 3, 4⟩ out 0 none).Pairwise
        (fun a b => a.1.2 < b.1.1) ∧
      ([((3 : Nat), (5 : Nat)), (0, 2)].Pairwise (fun a b => a.1 ≤ b.1) →
        read_spans_I_run ⟨0, 1, 2, 3, 4⟩ out 0 none = [(3, 5), (0, 2)].zip [2, 0]) :=
  tag_sentence_round_trip ⟨0, 1, 2, 3, 4⟩ [(3, 5), (0, 2)] [2, 0]
    (List.replicate 6 BIO_label.B_LOC) rfl (by decide) (by decide) (by decide)

/-! ## Detection labels -/

/-- C11: with the extractor call as the spec describes it (candidate spans of the
chunker, labelled by the classifier within the closed label set, spans predicted
`NOT_ENTITY` dropped), `mitie_extract_entities` returns one detection per
candidate span whose predicted label is not `NOT_ENTITY`, and the tag of every
detection is below `mitie_get_num_possible_ner_tags(ner)` and differs from
`NOT_ENTITY`, so that `mitie_ner_get_detection_tagstr` finds its string in the
tag-name sequence. -/
theorem extract_entities_tags_in_range (L : NerLabels)
    (tokenizer : String → List (String × Nat)) (ner : mitie_named_entity_extractor)
    (chunker : List String → List Span) (classifier : List String → Span → Nat)
    (text : String)
    (hner : ner.impl.run = extractor_run L chunker classifier)
    (hclosed : closed_label_set L ner.impl.tag_name_strings chunker classifier
      ((tokenizer text).map Prod.fst))
    (hspans : ∀ r ∈ chunker ((tokenizer text).map Prod.fst),
      r.1 < r.2 ∧ r.2 ≤ (tokenizer text).length)
    (htok : tokenizer_contract text (tokenizer text))
    (htext : text.length < ULONG_SIZE) :
    ∃ dets : mitie_named_entity_detections,
      mitie_extract_entities tokenizer ner text = Ret.object dets ∧
      mitie_ner_get_num_detections dets
        = ((chunker ((tokenizer text).map Prod.fst)).filter
            (fun c => decide (classifier ((tokenizer text).map Prod.fst) c
              ≠ L.NOT_ENTITY))).length ∧
      ∀ idx : Nat, idx < mitie_ner_get_num_detections dets →
        ∃ (tag : Nat) (str : String),
          mitie_ner_get_detection_tag dets idx = some tag ∧
          tag < mitie_get_num_possible_ner_tags ner ∧
          tag ≠ L.NOT_ENTITY ∧
          mitie_ner_get_detection_tagstr dets idx = some str ∧
          mitie_get_named_entity_tagstr ner tag = some str := by
  have hkept : ∀ r ∈ (chunker ((tokenizer text).map Prod.fst)).filter
      (fun c => decide (classifier ((tokenizer text).map Prod.fst) c ≠ L.NOT_ENTITY)),
      r.1 < r.2 ∧ r.2 ≤ (tokenizer text).length :=
    fun r hr => hspans r (List.mem_filter.mp hr).1
  have hrun : ner.impl.run ((tokenizer text).map Prod.fst) = some
      ((chunker ((tokenizer text).map Prod.fst)).filter
          (fun c => decide (classifier ((tokenizer text).map Prod.fst) c ≠ L.NOT_ENTITY)),
        ((chunker ((tokenizer text).map Prod.fst)).filter
          (fun c => decide (classifier ((tokenizer text).map Prod.fst) c
            ≠ L.NOT_ENTITY))).map (classifier ((tokenizer text).map Prod.fst))) := by
    rw [hner]; rfl
  refine ⟨_, extract_entities_object tokenizer ner text _ _ hrun hkept htok htext,
    by simp [mitie_ner_get_num_detections], ?_⟩
  intro idx hidx
  simp only [mitie_ner_get_num_detections, List.length_map] at hidx
  have hmem := List.getElem_mem hidx
  obtain ⟨hc, hne⟩ := List.mem_filter.mp hmem
  have hne2 : classifier ((tokenizer text).map Prod.fst)
      ((chunker ((tokenizer text).map Prod.fst)).filter
        (fun c => decide (classifier ((tokenizer text).map Prod.fst) c
          ≠ L.NOT_ENTITY)))[idx] ≠ L.NOT_ENTITY := by
    simpa using hne
  have hlt : classifier ((tokenizer text).map Prod.fst)
      ((chunker ((tokenizer text).map Prod.fst)).filter
        (fun c => decide (classifier ((tokenizer text).map Prod.fst) c
          ≠ L.NOT_ENTITY)))[idx] < ner.impl.tag_name_strings.length := by
    rcases hclosed _ hc with h | h
    · exact h
    · exact absurd h hne2
  obtain ⟨str, hstr⟩ : ∃ str, ner.impl.tag_name_strings[classifier
      ((tokenizer text).map Prod.fst)
      ((chunker ((tokenizer text).map Prod.fst)).filter
        (fun c => decide (classifier ((tokenizer text).map Prod.fst) c
          ≠ L.NOT_ENTITY)))[idx]]? = some str :=
    ⟨_, List.getElem?_eq_getElem hlt⟩
  refine ⟨_, str, ?_, hlt, hne2, ?_, ?_⟩
  · simp only [mitie_ner_get_detection_tag, List.getElem?_map,
      List.getElem?_eq_getElem hidx, Option.map_some']
  · simp only [mitie_ner_get_detection_tagstr, List.getElem?_map,
      List.getElem?_eq_getElem hidx, Option.map_some']
    exact hstr
  · simp only [mitie_get_named_entity_tagstr]
    exact hstr

/-- Witness of C11: the text `John Smith lives`, candidate spans `[0, 2)` predicted
`PER` and `[2, 3)` predicted `NOT_ENTITY`. -/
theorem extract_entities_tags_in_range_witness :
    ∃ dets : mitie_named_entity_detections,
      mitie_extract_entities (fun _ => [("John", 0), ("Smith", 5), ("lives", 11)])
        ⟨MITIE_NAMED_ENTITY_EXTRACTOR,
          ⟨["PERSON", "LOCATION", "ORGANIZATION", "MISC"],
            extractor_run ⟨0, 1, 2, 3, 4⟩ (fun _ => [(0, 2), (2, 3)])
              (fun _ c => if c = (0, 2) then 0 else 4)⟩⟩
        "John Smith lives" = Ret.object dets ∧
      mitie_ner_get_num_detections dets
        = (((fun _ => [(0, 2), (2, 3)] : List String → List Span)
              (((fun _ => [("John", 0), ("Smith", 5), ("lives", 11)] :
                String → List (String × Nat)) "John Smith lives").map Prod.fst)).filter
            (fun c => decide ((fun _ c => if c = (0, 2) then 0 else 4 :
                List String → Span → Nat)
              (((fun _ => [("John", 0), ("Smith", 5), ("lives", 11)] :
                String → List (String × Nat)) "John Smith lives").map Prod.fst) c
              ≠ (⟨0, 1, 2, 3, 4⟩ : NerLabels).NOT_ENTITY))).length ∧
      ∀ idx : Nat, idx < mitie_ner_get_num_detections dets →
        ∃ (tag : Nat) (str : String),
          mitie_ner_get_detection_tag dets idx = some tag ∧
          tag < mitie_get_num_possible_ner_tags
            ⟨MITIE_NAMED_ENTITY_EXTRACTOR,
              ⟨["PERSON", "LOCATION", "ORGANIZATION", "MISC"],
                extractor_run ⟨0, 1, 2, 3, 4⟩ (fun _ => [(0, 2), (2, 3)])
                  (fun _ c => if c = (0, 2) then 0 else 4)⟩⟩ ∧
          tag ≠ (⟨0, 1, 2, 3, 4⟩ : NerLabels).NOT_ENTITY ∧
          mitie_ner_get_detection_tagstr dets idx = some str ∧
          mitie_get_named_entity_tagstr
            ⟨MITIE_NAMED_ENTITY_EXTRACTOR,
              ⟨["PERSON", "LOCATION", "ORGANIZATION", "MISC"],
                extractor_run ⟨0, 1, 2, 3, 4⟩ (fun _ => [(0, 2), (2, 3)])
                  (fun _ c => if c = (0, 2) then 0 else 4)⟩⟩ tag = some str :=
  extract_entities_tags_in_range ⟨0, 1, 2, 3, 4⟩
    (fun _ => [("John", 0), ("Smith", 5), ("lives", 11)])
    ⟨MITIE_NAMED_ENTITY_EXTRACTOR,
      ⟨["PERSON", "LOCATION", "ORGANIZATION", "MISC"],
        extractor_run ⟨0, 1, 2, 3, 4⟩ (fun _ => [(0, 2), (2, 3)])
          (fun _ c => if c = (0, 2) then 0 else 4)⟩⟩
    (fun _ => [(0, 2), (2, 3)]) (fun _ c => if c = (0, 2) then 0 else 4)
    "John Smith lives" rfl
    (by unfold closed_label_set; decide) (by decide) ⟨by decide, by decide⟩ (by decide)

/-! ## Lemmas on the counting loops of `test_id` -/

theorem sum_set_succ : ∀ (v : List Nat) (i x : Nat), v[i]? = some x →
    (v.set i (x + 1)).sum = v.sum + 1 := by
  intro v
  induction v with
  | nil => intro i x h; simp at h
  | cons a v ih =>
    intro i x h
    cases i with
    | zero =>
      simp only [List.getElem?_cons_zero, Option.some.injEq] at h
      subst h
      simp only [List.set_cons_zero, List.sum_cons]
      omega
    | succ i =>
      simp only [List.getElem?_cons_succ] at h
      simp only [List.set_cons_succ, List.sum_cons, ih i x h]
      omega

theorem increment_spec (v : List Nat) (i : Nat) (hi : i < v.length) :
    ∃ v2 : List Nat, increment v i = some v2 ∧ v2.length = v.length ∧
      v2.sum = v.sum + 1 ∧
      ∀ l : Nat, (v2[l]?).getD 0 = (v[l]?).getD 0 + (if l = i then 1 else 0) := by
  have hget : v[i]? = some v[i] := List.getElem?_eq_getElem hi
  refine ⟨v.set i (v[i] + 1), by simp [increment, hget], by simp,
    sum_set_succ v i v[i] hget, ?_⟩
  intro l
  by_cases hl : l = i
  · subst hl
    simp [List.getElem?_set_self hi, hget]
  · have hne : i ≠ l := fun h => hl h.symm
    simp [List.getElem?_set_ne hne, hl]

theorem count_detection_spec (c : Counters) (p t : Nat)
    (hd : p < c.num_dets.length) (ht : p < c.num_true_dets.length) :
    ∃ c2 : Counters, count_detection c p t = some c2 ∧
      c2.num_targets = c.num_targets ∧
      c2.num_dets.length = c.num_dets.length ∧
      c2.num_true_dets.length = c.num_true_dets.length ∧
      c2.num_dets.sum = c.num_dets.sum + 1 ∧
      c2.num_true_dets.sum = c.num_true_dets.sum + (if p = t then 1 else 0) ∧
      (∀ l : Nat, (c2.num_dets[l]?).getD 0
        = (c.num_dets[l]?).getD 0 + (if l = p then 1 else 0)) ∧
      (∀ l : Nat, (c2.num_true_dets[l]?).getD 0
        = (c.num_true_dets[l]?).getD 0 + (if l = p ∧ p = t then 1 else 0)) := by
  obtain ⟨nd, h1, h2, h3, h4⟩ := increment_spec c.num_dets p hd
  by_cases hpt : p = t
  · subst hpt
    obtain ⟨nt, g1, g2, g3, g4⟩ := increment_spec c.num_true_dets p ht
    refine ⟨{ c with num_dets := nd, num_true_dets := nt }, ?_, rfl, h2, g2, h3, ?_, h4, ?_⟩
    · simp [count_detection, h1, g1]
    · simp [g3]
    · intro l
      rw [g4 l]
      by_cases hl : l = p <;> simp [hl]
  · refine ⟨{ c with num_dets := nd }, ?_, rfl, h2, rfl, h3, ?_, h4, ?_⟩
    · simp [count_detection, h1, hpt]
    · simp [hpt]
    · intro l
      simp [hpt]

theorem count_detections_spec (L : NerLabels) (chunks : List Span) (chunk_labels : List Nat)
    (ranges : List Span) (predicted_labels : List Nat) (n : Nat)
    (hgold : chunk_labels.length = chunks.length)
    (hlen : predicted_labels.length = ranges.length)
    (hp : ∀ p ∈ predicted_labels, p < n) :
    ∀ (count j : Nat) (c : Counters), j + count = ranges.length →
      c.num_dets.length = n → c.num_true_dets.length = n →
      ∃ c2 : Counters,
        count_detections L chunks chunk_labels ranges predicted_labels count j c = some c2 ∧
        c2.num_targets = c.num_targets ∧
        c2.num_dets.length = n ∧ c2.num_true_dets.length = n ∧
        c2.num_dets.sum = c.num_dets.sum + count ∧
        c2.num_true_dets.sum = c.num_true_dets.sum +
          (((ranges.zip predicted_labels).drop j).filter
            (fun x => decide (get_label L chunks chunk_labels x.1 = some x.2))).length ∧
        ((∀ l : Nat, (c.num_true_dets[l]?).getD 0 ≤ (c.num_dets[l]?).getD 0) →
          ∀ l : Nat, (c2.num_true_dets[l]?).getD 0 ≤ (c2.num_dets[l]?).getD 0) := by
  intro count
  induction count with
  | zero =>
    intro j c hj h1 h2
    have hdrop : (ranges.zip predicted_labels).drop j = [] := by
      apply List.drop_eq_nil_of_le
      simp [List.length_zip, hlen]
      omega
    exact ⟨c, rfl, rfl, h1, h2, rfl, by simp [hdrop], fun h => h⟩
  | succ count ih =>
    intro j c hj h1 h2
    have hjr : j < ranges.length := by omega
    have hjp : j < predicted_labels.length := by omega
    have hpj : predicted_labels[j] < n := hp _ (List.getElem_mem hjp)
    obtain ⟨t, ht⟩ : ∃ t, get_label L chunks chunk_labels ranges[j] = some t := by
      rcases get_label_spec L chunks chunk_labels ranges[j] hgold with
        ⟨_, h⟩ | ⟨_, l, _, _, _, h⟩
      · exact ⟨_, h⟩
      · exact ⟨l, h⟩
    obtain ⟨c1, e1, e2, e3, e4, e5, e6, e7, e8⟩ :=
      count_detection_spec c predicted_labels[j] t (by omega) (by omega)
    obtain ⟨c2, f1, f2, f3, f4, f5, f6, f7⟩ := ih (j + 1) c1 (by omega) (by omega) (by omega)
    have hjz : j < (ranges.zip predicted_labels).length := by
      simp [List.length_zip, hlen]
      omega
    have hdrop : (ranges.zip predicted_labels).drop j
        = (ranges[j], predicted_labels[j]) :: (ranges.zip predicted_labels).drop (j + 1) := by
      rw [List.drop_eq_getElem_cons hjz]
      simp
    refine ⟨c2, ?_, by rw [f2, e2], f3, f4, by rw [f5, e5]; omega, ?_, ?_⟩
    · simp only [count_detections, List.getElem?_eq_getElem hjr,
        List.getElem?_eq_getElem hjp, ht, e1]
      exact f1
    · rw [f6, e6, hdrop, List.filter_cons]
      by_cases hm : predicted_labels[j] = t
      · have : get_label L chunks chunk_labels ranges[j] = some predicted_labels[j] := by
          rw [ht, hm]
        simp [hm, this]
        omega
      · have : ¬ get_label L chunks chunk_labels ranges[j] = some predicted_labels[j] := by
          rw [ht]
          intro h
          exact hm (Option.some.inj h).symm
        simp [hm, this]
    · intro hinv
      apply f7
      intro l
      rw [e7 l, e8 l]
      have := hinv l
      split_ifs <;> omega

theorem count_targets_spec : ∀ (labels t : List Nat), (∀ g ∈ labels, g < t.length) →
    ∃ t2 : List Nat, count_targets labels t = some t2 ∧ t2.length = t.length ∧
      t2.sum = t.sum + labels.length := by
  intro labels
  induction labels with
  | nil => intro t _; exact ⟨t, rfl, rfl, rfl⟩
  | cons g rest ih =>
    intro t h
    obtain ⟨t1, h1, h2, h3, _⟩ := increment_spec t g (h g (List.mem_cons_self _ _))
    obtain ⟨t2, g1, g2, g3⟩ := ih t1 (fun x hx => by
      rw [h2]; exact h x (List.mem_cons_of_mem _ hx))
    refine ⟨t2, by simp [count_targets, h1, g1], by omega, ?_⟩
    rw [g3, h3, List.length_cons]
    omega

theorem detections_of_eq (ner : named_entity_extractor) (s : conll_sentence)
    (ranges : List Span) (predicted_labels : List Nat)
    (h : ner.run s.words = some (ranges, predicted_labels)) :
    detections_of ner s = ranges.zip predicted_labels := by
  simp [detections_of, h]

/-- The invariant of the loop over the sentences: the counters keep their length,
their sums grow by the numbers of detections, of true detections and of gold
labels, and no label has more true detections than detections. -/
theorem test_id_loop_spec (L : NerLabels) (ner : named_entity_extractor) (n : Nat) :
    ∀ (sentences : List conll_sentence) (c : Counters),
      test_id_inputs_ok n ner sentences →
      c.num_targets.length = n → c.num_dets.length = n → c.num_true_dets.length = n →
      ∃ c2 : Counters, test_id_loop L ner sentences c = some c2 ∧
        c2.num_targets.length = n ∧ c2.num_dets.length = n ∧ c2.num_true_dets.length = n ∧
        c2.num_dets.sum
          = c.num_dets.sum + (sentences.map (fun s => (detections_of ner s).length)).sum ∧
        c2.num_true_dets.sum
          = c.num_true_dets.sum
            + (sentences.map (fun s => (true_detections L ner s).length)).sum ∧
        c2.num_targets.sum
          = c.num_targets.sum + (sentences.map (fun s => s.chunk_labels.length)).sum ∧
        ((∀ l : Nat, (c.num_true_dets[l]?).getD 0 ≤ (c.num_dets[l]?).getD 0) →
          ∀ l : Nat, (c2.num_true_dets[l]?).getD 0 ≤ (c2.num_dets[l]?).getD 0) := by
  intro sentences
  induction sentences with
  | nil =>
    intro c _ h1 h2 h3
    exact ⟨c, rfl, h1, h2, h3, by simp, by simp, by simp, fun h => h⟩
  | cons s rest ih =>
    intro c hok h1 h2 h3
    obtain ⟨⟨ranges, preds, hrun, hlen, hp⟩, hgold, hg⟩ := hok s (List.mem_cons_self _ _)
    obtain ⟨c1, e1, e2, e3, e4, e5, e6, e7⟩ :=
      count_detections_spec L s.chunks s.chunk_labels ranges preds n hgold hlen hp
        ranges.length 0 c (by omega) h2 h3
    obtain ⟨t, g1, g2, g3⟩ := count_targets_spec s.chunk_labels c1.num_targets
      (fun g hgm => by rw [e2, h1]; exact hg g hgm)
    obtain ⟨c2, f1, f2, f3, f4, f5, f6, f7, f8⟩ :=
      ih { c1 with num_targets := t } (fun x hx => hok x (List.mem_cons_of_mem _ hx))
        (by simp only; rw [g2, e2, h1]) e3 e4
    have hdet : (detections_of ner s).length = ranges.length := by
      rw [detections_of_eq ner s ranges preds hrun, List.length_zip, hlen, Nat.min_self]
    have htrue : (true_detections L ner s).length
        = ((ranges.zip preds).filter
            (fun x => decide (get_label L s.chunks s.chunk_labels x.1 = some x.2))).length := by
      rw [true_detections, detections_of_eq ner s ranges preds hrun]
    refine ⟨c2, ?_, f2, f3, f4, ?_, ?_, ?_, fun h => f8 (e7 h)⟩
    · simp only [test_id_loop, hrun, e1, g1]
      exact f1
    · rw [f5, List.map_cons, List.sum_cons, hdet]
      simp only
      rw [e5]
      omega
    · rw [f6, List.map_cons, List.sum_cons, htrue]
      simp only
      rw [e6, List.drop_zero]
      omega
    · rw [f7, List.map_cons, List.sum_cons]
      simp only
      rw [g3, e2]
      omega

theorem test_id_counters_spec (L : NerLabels) (ner : named_entity_extractor)
    (sentences : List conll_sentence)
    (hok : test_id_inputs_ok ner.tag_name_strings.length ner sentences) :
    ∃ c : Counters, test_id_counters L ner sentences = some c ∧
      c.num_targets.length = ner.tag_name_strings.length ∧
      c.num_dets.length = ner.tag_name_strings.length ∧
      c.num_true_dets.length = ner.tag_name_strings.length ∧
      c.num_dets.sum = (sentences.map (fun s => (detections_of ner s).length)).sum ∧
      c.num_true_dets.sum = (sentences.map (fun s => (true_detections L ner s).length)).sum ∧
      c.num_targets.sum = (sentences.map (fun s => s.chunk_labels.length)).sum ∧
      ∀ l : Nat, (c.num_true_dets[l]?).getD 0 ≤ (c.num_dets[l]?).getD 0 := by
  obtain ⟨c, h1, h2, h3, h4, h5, h6, h7, h8⟩ :=
    test_id_loop_spec L ner ner.tag_name_strings.length sentences
      { num_targets := List.replicate ner.tag_name_strings.length 0
        num_dets := List.replicate ner.tag_name_strings.length 0
        num_true_dets := List.replicate ner.tag_name_strings.length 0 }
      hok (by simp) (by simp) (by simp)
  refine ⟨c, h1, h2, h3, h4, ?_, ?_, ?_, h8 (fun l => Nat.le_refl _)⟩
  · simpa using h5
  · simpa using h6
  · simpa using h7

theorem label_results_spec {α : Type} (div : Nat → Nat → α) (c : Counters) (n : Nat)
    (h1 : c.num_targets.length = n) (h2 : c.num_dets.length = n)
    (h3 : c.num_true_dets.length = n) :
    ∀ (count i : Nat), i + count = n →
      ∃ res : List (α × α), label_results div c count i = some res ∧
        res.length = count ∧
        ∀ k : Nat, k < count →
          res[k]? = some
            (div ((c.num_true_dets[i + k]?).getD 0) ((c.num_dets[i + k]?).getD 0),
             div ((c.num_true_dets[i + k]?).getD 0) ((c.num_targets[i + k]?).getD 0)) := by
  intro count
  induction count with
  | zero => intro i _; exact ⟨[], rfl, rfl, fun k hk => absurd hk (Nat.not_lt_zero _)⟩
  | succ count ih =>
    intro i hi
    obtain ⟨rest, g1, g2, g3⟩ := ih (i + 1) (by omega)
    have a1 : i < c.num_true_dets.length := by omega
    have a2 : i < c.num_dets.length := by omega
    have a3 : i < c.num_targets.length := by omega
    refine ⟨(div c.num_true_dets[i] c.num_dets[i], div c.num_true_dets[i] c.num_targets[i])
      :: rest, ?_, by simp [g2], ?_⟩
    · simp only [label_results, List.getElem?_eq_getElem a1, List.getElem?_eq_getElem a2,
        List.getElem?_eq_getElem a3, g1]
    · intro k hk
      cases k with
      | zero =>
        simp [List.getElem?_eq_getElem a1, List.getElem?_eq_getElem a2,
          List.getElem?_eq_getElem a3]
      | succ k =>
        have := g3 k (by omega)
        have e : i + 1 + k = i + (k + 1) := by omega
        rw [e] at this
        simpa using this

theorem test_id_spec {α : Type} (div : Nat → Nat → α) (L : NerLabels)
    (ner : named_entity_extractor) (sentences : List conll_sentence)
    (hok : test_id_inputs_ok ner.tag_name_strings.length ner sentences) :
    ∃ (c : Counters) (per_label : List (α × α)),
      test_id_counters L ner sentences = some c ∧
      test_id div L ner sentences = some (per_label, total_results div c) ∧
      per_label.length = ner.tag_name_strings.length ∧
      ∀ i : Nat, i < ner.tag_name_strings.length →
        per_label[i]? = some
          (div ((c.num_true_dets[i]?).getD 0) ((c.num_dets[i]?).getD 0),
           div ((c.num_true_dets[i]?).getD 0) ((c.num_targets[i]?).getD 0)) := by
  obtain ⟨c, h1, h2, h3, h4, _⟩ := test_id_counters_spec L ner sentences hok
  obtain ⟨res, g1, g2, g3⟩ :=
    label_results_spec div c ner.tag_name_strings.length h2 h3 h4
      ner.tag_name_strings.length 0 (by omega)
  refine ⟨c, res, h1, ?_, g2, ?_⟩
  · simp only [test_id, h1, h2, g1]
  · intro i hi
    have := g3 i hi
    rwa [Nat.zero_add] at this

theorem example_inputs_ok : test_id_inputs_ok 4 example_extractor [example_sentence] := by
  intro s hs
  simp only [List.mem_singleton] at hs
  subst hs
  exact ⟨⟨[(0, 2), (3, 4)], [0, 2], rfl, rfl, by decide⟩, rfl, by decide⟩

theorem sum_map_le_sum_map {β : Type} (f g : β → Nat) :
    ∀ xs : List β, (∀ x ∈ xs, f x ≤ g x) → (xs.map f).sum ≤ (xs.map g).sum := by
  intro xs
  induction xs with
  | nil => intro _; simp
  | cons x xs ih =>
    intro h
    have h1 := h x (List.mem_cons_self _ _)
    have h2 := ih (fun y hy => h y (List.mem_cons_of_mem _ hy))
    simp only [List.map_cons, List.sum_cons]
    omega

theorem sum_map_eq_sum_map {β : Type} (f g : β → Nat) :
    ∀ xs : List β, (∀ x ∈ xs, f x = g x) → (xs.map f).sum = (xs.map g).sum := by
  intro xs
  induction xs with
  | nil => intro _; simp
  | cons x xs ih =>
    intro h
    have h1 := h x (List.mem_cons_self _ _)
    have h2 := ih (fun y hy => h y (List.mem_cons_of_mem _ hy))
    simp only [List.map_cons, List.sum_cons]
    omega

/-! ## The metrics of `test_id` -/

/-- C13: on the spec's example (gold `(0,2,PERSON)`, `(5,6,LOCATION)`; predicted
`(0,2,PERSON)`, `(3,4,ORG)`) the totals of `test_id` are precision `1/2` and recall
`1/2`; in general, on inputs that keep the loop within its vectors, the total
precision is the quotient of the number of detections whose predicted label equals
`get_label` of their range by the number of detections, the total recall is the
quotient of the same numerator by the number of gold spans, and a detection whose
label is not `NOT_ENTITY` counts in the numerator only if its range equals a gold
chunk that carries its label. -/
theorem test_id_total_precision_recall {α : Type} (div : Nat → Nat → α) (L : NerLabels)
    (ner : named_entity_extractor) (sentences : List conll_sentence)
    (hok : test_id_inputs_ok ner.tag_name_strings.length ner sentences) :
    (∃ per_label : List (DoubleVal × DoubleVal),
      test_id double_div ⟨0, 1, 2, 3, 4⟩ example_extractor [example_sentence]
        = some (per_label, (DoubleVal.finite (1 / 2), DoubleVal.finite (1 / 2)))) ∧
    (∃ per_label : List (α × α),
      test_id div L ner sentences = some (per_label,
        (div ((sentences.map (fun s => (true_detections L ner s).length)).sum)
            ((sentences.map (fun s => (detections_of ner s).length)).sum),
         div ((sentences.map (fun s => (true_detections L ner s).length)).sum)
            ((sentences.map (fun s => s.chunks.length)).sum)))) ∧
    (∀ s ∈ sentences, ∀ x ∈ true_detections L ner s, x.2 ≠ L.NOT_ENTITY →
      ∃ i : Nat, s.chunks[i]? = some x.1 ∧ s.chunk_labels[i]? = some x.2) := by
  refine ⟨?_, ?_, ?_⟩
  · have h : test_id double_div ⟨0, 1, 2, 3, 4⟩ example_extractor [example_sentence]
        = some ([(double_div 1 1, double_div 1 1), (double_div 0 0, double_div 0 1),
            (double_div 0 1, double_div 0 0), (double_div 0 0, double_div 0 0)],
          (double_div 1 2, double_div 1 2)) := rfl
    have h2 : double_div 1 2 = DoubleVal.finite (1 / 2) := by simp [double_div]
    rw [h2] at h
    exact ⟨_, h⟩
  · obtain ⟨c, h1, _, _, _, h5, h6, h7, _⟩ := test_id_counters_spec L ner sentences hok
    obtain ⟨c2, per_label, g1, g2, _, _⟩ := test_id_spec div L ner sentences hok
    rw [h1] at g1
    cases Option.some.inj g1
    refine ⟨per_label, ?_⟩
    rw [g2, total_results, h5, h6, h7]
    rw [sum_map_eq_sum_map (fun s => s.chunk_labels.length) (fun s => s.chunks.length)
      sentences (fun s hs => (hok s hs).2.1)]
  · intro s hs x hx hne
    have hgold := (hok s hs).2.1
    have hx2 := (List.mem_filter.mp hx).2
    have hget : get_label L s.chunks s.chunk_labels x.1 = some x.2 := by simpa using hx2
    rcases get_label_spec L s.chunks s.chunk_labels x.1 hgold with
      ⟨_, h⟩ | ⟨i, l, h1, h2, _, h4⟩
    · rw [hget] at h
      exact absurd (Option.some.inj h) hne
    · rw [hget] at h4
      cases Option.some.inj h4
      exact ⟨i, h1, h2⟩

/-- Witness of C13: the spec's example itself. -/
theorem test_id_total_precision_recall_witness :
    (∃ per_label : List (DoubleVal × DoubleVal),
      test_id double_div ⟨0, 1, 2, 3, 4⟩ example_extractor [example_sentence]
        = some (per_label, (DoubleVal.finite (1 / 2), DoubleVal.finite (1 / 2)))) ∧
    (∃ per_label : List (DoubleVal × DoubleVal),
      test_id double_div ⟨0, 1, 2, 3, 4⟩ example_extractor [example_sentence]
        = some (per_label,
          (double_div
            (([example_sentence].map
              (fun s => (true_detections ⟨0, 1, 2, 3, 4⟩ example_extractor s).length)).sum)
            (([example_sentence].map
              (fun s => (detections_of example_extractor s).length)).sum),
           double_div
            (([example_sentence].map
              (fun s => (true_detections ⟨0, 1, 2, 3, 4⟩ example_extractor s).length)).sum)
            (([example_sentence].map (fun s => s.chunks.length)).sum)))) :=
  ⟨(test_id_total_precision_recall double_div ⟨0, 1, 2, 3, 4⟩ example_extractor
      [example_sentence] example_inputs_ok).1,
    (test_id_total_precision_recall double_div ⟨0, 1, 2, 3, 4⟩ example_extractor
      [example_sentence] example_inputs_ok).2.1⟩

theorem increment_getElem_ne (v v2 : List Nat) (i l : Nat) (h : increment v i = some v2)
    (hl : l ≠ i) : v2[l]? = v[l]? := by
  unfold increment at h
  cases hv : v[i]? with
  | none => rw [hv] at h; cases h
  | some x =>
    rw [hv] at h
    cases Option.some.inj h
    exact List.getElem?_set_ne (fun e => hl e.symm)

/-- C17: when the predicted label is below `num_labels`, the statements that count
one detection stay within the vectors whatever label `get_label` returned
(`NOT_ENTITY` included) and change `num_true_dets` at no index other than the
predicted label; and on inputs whose predicted labels are all below `num_labels`
the loop of `test_id` ends with `num_true_dets[l] <= num_dets[l]` for every label
`l`, so the total of true detections is at most the total of detections and the
total precision, when there is a detection, is a number at most `1`. -/
theorem test_id_true_dets_bounded (L : NerLabels) (ner : named_entity_extractor)
    (sentences : List conll_sentence)
    (hok : test_id_inputs_ok ner.tag_name_strings.length ner sentences) :
    (∀ (c : Counters) (p t : Nat), p < c.num_dets.length → p < c.num_true_dets.length →
      ∃ c2 : Counters, count_detection c p t = some c2 ∧
        c2.num_true_dets.length = c.num_true_dets.length ∧
        ∀ l : Nat, l ≠ p → c2.num_true_dets[l]? = c.num_true_dets[l]?) ∧
    ∃ c : Counters, test_id_counters L ner sentences = some c ∧
      c.num_dets.length = ner.tag_name_strings.length ∧
      c.num_true_dets.length = ner.tag_name_strings.length ∧
      (∀ l : Nat, (c.num_true_dets[l]?).getD 0 ≤ (c.num_dets[l]?).getD 0) ∧
      c.num_true_dets.sum ≤ c.num_dets.sum ∧
      (0 < c.num_dets.sum →
        ∃ q : ℚ, (total_results double_div c).1 = DoubleVal.finite q ∧ q ≤ 1) := by
  refine ⟨?_, ?_⟩
  · intro c p t hd ht
    obtain ⟨c2, h1, _, _, h4, _⟩ := count_detection_spec c p t hd ht
    refine ⟨c2, h1, h4, ?_⟩
    intro l hl
    unfold count_detection at h1
    cases hnd : increment c.num_dets p with
    | none => rw [hnd] at h1; cases h1
    | some nd =>
      rw [hnd] at h1
      by_cases hpt : p = t
      · subst hpt
        simp only [if_true] at h1
        cases hnt : increment c.num_true_dets p with
        | none => rw [hnt] at h1; cases h1
        | some nt =>
          rw [hnt] at h1
          cases Option.some.inj h1
          exact increment_getElem_ne c.num_true_dets nt p l hnt hl
      · simp only [hpt, if_false] at h1
        cases Option.some.inj h1
        rfl
  · obtain ⟨c, h1, _, h3, h4, h5, h6, _, h8⟩ := test_id_counters_spec L ner sentences hok
    have hle : c.num_true_dets.sum ≤ c.num_dets.sum := by
      rw [h5, h6]
      apply sum_map_le_sum_map
      intro s _
      exact List.length_filter_le _ _
    refine ⟨c, h1, h3, h4, h8, hle, ?_⟩
    intro hpos
    have hne : c.num_dets.sum ≠ 0 := by omega
    refine ⟨(c.num_true_dets.sum : ℚ) / (c.num_dets.sum : ℚ), ?_, ?_⟩
    · simp [total_results, double_div, hne]
    · have hq : (0 : ℚ) < (c.num_dets.sum : ℚ) := by exact_mod_cast hpos
      rw [div_le_one hq]
      exact_mod_cast hle

/-- Witness of C17: the spec's metric example. -/
theorem test_id_true_dets_bounded_witness :
    ∃ c : Counters,
      test_id_counters ⟨0, 1, 2, 3, 4⟩ example_extractor [example_sentence] = some c ∧
      c.num_dets.length = example_extractor.tag_name_strings.length ∧
      c.num_true_dets.length = example_extractor.tag_name_strings.length ∧
      (∀ l : Nat, (c.num_true_dets[l]?).getD 0 ≤ (c.num_dets[l]?).getD 0) ∧
      c.num_true_dets.sum ≤ c.num_dets.sum ∧
      (0 < c.num_dets.sum →
        ∃ q : ℚ, (total_results double_div c).1 = DoubleVal.finite q ∧ q ≤ 1) :=
  (test_id_true_dets_bounded ⟨0, 1, 2, 3, 4⟩ example_extractor [example_sentence]
    example_inputs_ok).2

/-- Counterexample to C14: on the spec's metric example label `1` has no detection
and label `2` no gold occurrence; for every division `div`, what `test_id` reports
for them is `div 0 0` itself, the result of the unguarded division (`NaN` for the
division of `double`), so the report is not a fixed "undefined" mark set by a
check of the denominator. -/
theorem test_id_unguarded_division :
    (∀ (α : Type) (div : Nat → Nat → α),
      test_id div ⟨0, 1, 2, 3, 4⟩ example_extractor [example_sentence]
        = some ([(div 1 1, div 1 1), (div 0 0, div 0 1), (div 0 1, div 0 0),
            (div 0 0, div 0 0)], (div 1 2, div 1 2))) ∧
    double_div 0 0 = DoubleVal.nan ∧
    ¬ (∃ u : DoubleVal, ∀ div : Nat → Nat → DoubleVal,
        ∃ out : List (DoubleVal × DoubleVal) × (DoubleVal × DoubleVal),
          test_id div ⟨0, 1, 2, 3, 4⟩ example_extractor [example_sentence] = some out ∧
          (out.1[1]?).map Prod.fst = some u) := by
  have h : ∀ (α : Type) (div : Nat → Nat → α),
      test_id div ⟨0, 1, 2, 3, 4⟩ example_extractor [example_sentence]
        = some ([(div 1 1, div 1 1), (div 0 0, div 0 1), (div 0 1, div 0 0),
            (div 0 0, div 0 0)], (div 1 2, div 1 2)) := fun _ _ => rfl
  refine ⟨h, rfl, ?_⟩
  rintro ⟨u, hu⟩
  obtain ⟨o1, e1, f1⟩ := hu (fun _ _ => DoubleVal.nan)
  obtain ⟨o2, e2, f2⟩ := hu (fun _ _ => DoubleVal.inf)
  rw [h] at e1 e2
  cases Option.some.inj e1
  cases Option.some.inj e2
  simp only [List.getElem?_cons_succ, List.getElem?_cons_zero, Option.map_some',
    Option.some.injEq] at f1 f2
  rw [← f1] at f2
  cases f2

/-- C14 (amended): on inputs that keep the loop within its vectors, `test_id`
reports for every label `i` the two quotients `num_true_dets[i]/num_dets[i]` and
`num_true_dets[i]/num_targets[i]` as the division yields them, with no check of
the denominator; under the division of `double` the precision of a label with
`num_dets[i] = 0` is `NaN` and the recall of a label with `num_targets[i] = 0` is
`NaN` or infinity: neither is a number, so neither is reported as zero. -/
theorem test_id_zero_denominator (L : NerLabels) (ner : named_entity_extractor)
    (sentences : List conll_sentence)
    (hok : test_id_inputs_ok ner.tag_name_strings.length ner sentences) :
    ∃ c : Counters, test_id_counters L ner sentences = some c ∧
      (∀ (α : Type) (div : Nat → Nat → α), ∃ per_label : List (α × α),
        test_id div L ner sentences = some (per_label, total_results div c) ∧
        ∀ i : Nat, i < ner.tag_name_strings.length →
          per_label[i]? = some
            (div ((c.num_true_dets[i]?).getD 0) ((c.num_dets[i]?).getD 0),
             div ((c.num_true_dets[i]?).getD 0) ((c.num_targets[i]?).getD 0))) ∧
      (∀ i : Nat, (c.num_dets[i]?).getD 0 = 0 →
        double_div ((c.num_true_dets[i]?).getD 0) ((c.num_dets[i]?).getD 0)
          = DoubleVal.nan) ∧
      (∀ i : Nat, (c.num_targets[i]?).getD 0 = 0 →
        (double_div ((c.num_true_dets[i]?).getD 0) ((c.num_targets[i]?).getD 0)
            = DoubleVal.nan ∨
          double_div ((c.num_true_dets[i]?).getD 0) ((c.num_targets[i]?).getD 0)
            = DoubleVal.inf) ∧
        ∀ q : ℚ, double_div ((c.num_true_dets[i]?).getD 0) ((c.num_targets[i]?).getD 0)
          ≠ DoubleVal.finite q) := by
  obtain ⟨c, h1, _, _, _, _, _, _, h8⟩ := test_id_counters_spec L ner sentences hok
  refine ⟨c, h1, ?_, ?_, ?_⟩
  · intro α div
    obtain ⟨c2, per_label, g1, g2, _, g4⟩ := test_id_spec div L ner sentences hok
    rw [h1] at g1
    cases Option.some.inj g1
    exact ⟨per_label, g2, g4⟩
  · intro i hi
    have := h8 i
    have ht : (c.num_true_dets[i]?).getD 0 = 0 := by omega
    rw [ht, hi]
    rfl
  · intro i hi
    rw [hi]
    by_cases ht : (c.num_true_dets[i]?).getD 0 = 0
    · rw [ht]
      exact ⟨Or.inl rfl, fun q h => by cases h⟩
    · refine ⟨Or.inr (by simp [double_div, ht]), fun q h => ?_⟩
      simp [double_div, ht] at h

/-- Witness of C14 (amended): the spec's metric example. -/
theorem test_id_zero_denominator_witness :
    ∃ c : Counters,
      test_id_counters ⟨0, 1, 2, 3, 4⟩ example_extractor [example_sentence] = some c ∧
      (∀ i : Nat, (c.num_dets[i]?).getD 0 = 0 →
        double_div ((c.num_true_dets[i]?).getD 0) ((c.num_dets[i]?).getD 0)
          = DoubleVal.nan) :=
  (test_id_zero_denominator ⟨0, 1, 2, 3, 4⟩ example_extractor [example_sentence]
    example_inputs_ok).elim (fun c h => ⟨c, h.1, h.2.2.1⟩)

/-! ## Lemmas on the order of the sample sequence -/

theorem sorted_ranges_unique (l1 l2 : List Span)
    (h1 : l1.Pairwise (fun a b => pair_lt a b = true))
    (h2 : l2.Pairwise (fun a b => pair_lt a b = true))
    (hmem : ∀ x : Span, x ∈ l1 ↔ x ∈ l2) : l1 = l2 := by
  have hanti : IsAntisymm Span (fun a b => pair_lt a b = true) :=
    ⟨fun a b hab hba => by
      have := pair_lt_trans hab hba
      rw [pair_lt_irrefl] at this
      exact absurd this Bool.false_ne_true⟩
  have hnd : ∀ l : List Span, l.Pairwise (fun a b => pair_lt a b = true) → l.Nodup := by
    intro l hl
    refine hl.imp ?_
    intro a b hab heq
    subst heq
    rw [pair_lt_irrefl] at hab
    exact Bool.false_ne_true hab
  have hperm : l1.Perm l2 := (List.perm_ext_iff_of_nodup (hnd l1 h1) (hnd l2 h2)).mpr hmem
  exact List.eq_of_perm_of_sorted hperm h1 h2

theorem train_id_ranges_perm (chunks chunks2 temp temp2 : List Span)
    (hc : chunks2.Perm chunks) (ht : temp2.Perm temp) :
    train_id_ranges chunks2 temp2 = train_id_ranges chunks temp := by
  apply sorted_ranges_unique _ _ (sorted_train_id_ranges _ _) (sorted_train_id_ranges _ _)
  intro x
  rw [mem_train_id_ranges, mem_train_id_ranges, hc.mem_iff, ht.mem_iff]

/-- With pairwise distinct gold chunks, `get_label` returns `l` for a range exactly
when the range is paired with `l` among the gold chunks, or is no gold chunk and
`l` is `NOT_ENTITY`. -/
theorem get_label_eq_some_iff (L : NerLabels) (chunks : List Span) (chunk_labels : List Nat)
    (hlen : chunk_labels.length = chunks.length) (hnodup : chunks.Nodup)
    (r : Span) (l : Nat) :
    get_label L chunks chunk_labels r = some l ↔
      (r, l) ∈ chunks.zip chunk_labels ∨ (r ∉ chunks ∧ l = L.NOT_ENTITY) := by
  rcases get_label_spec L chunks chunk_labels r hlen with
    ⟨hn, h⟩ | ⟨t, l0, h1, h2, _, h4⟩
  · rw [h]
    constructor
    · intro e
      exact Or.inr ⟨hn, (Option.some.inj e).symm⟩
    · rintro (hz | ⟨_, e⟩)
      · exact absurd (List.of_mem_zip hz).1 hn
      · rw [e]
  · rw [h4]
    have hmem : r ∈ chunks := List.getElem?_mem h1
    constructor
    · intro e
      cases Option.some.inj e
      exact Or.inl (List.getElem?_mem (List.getElem?_zip_eq_some.mpr ⟨h1, h2⟩))
    · rintro (hz | ⟨hn, _⟩)
      · obtain ⟨u, hu⟩ := List.mem_iff_getElem?.mp hz
        obtain ⟨u1, u2⟩ := List.getElem?_zip_eq_some.mp hu
        simp only at u1 u2
        obtain ⟨ht, et⟩ := List.getElem?_eq_some.mp h1
        obtain ⟨hul, eu⟩ := List.getElem?_eq_some.mp u1
        have : t = u := (@List.Nodup.getElem_inj_iff _ _ hnodup t ht u hul).mp (by rw [et, eu])
        subst this
        rw [h2] at u2
        exact u2
      · exact absurd hmem hn

theorem get_label_perm (L : NerLabels) (chunks chunks2 : List Span)
    (chunk_labels chunk_labels2 : List Nat)
    (hlen : chunk_labels.length = chunks.length)
    (hlen2 : chunk_labels2.length = chunks2.length)
    (hnodup : chunks.Nodup)
    (hperm : (chunks2.zip chunk_labels2).Perm (chunks.zip chunk_labels)) (r : Span) :
    chunks2.Perm chunks ∧
    get_label L chunks2 chunk_labels2 r = get_label L chunks chunk_labels r := by
  have hc : chunks2.Perm chunks := by
    have := hperm.map Prod.fst
    rwa [List.map_fst_zip _ _ (by omega), List.map_fst_zip _ _ (by omega)] at this
  have hnodup2 : chunks2.Nodup := hc.nodup_iff.mpr hnodup
  refine ⟨hc, ?_⟩
  obtain ⟨l, hl⟩ : ∃ l, get_label L chunks chunk_labels r = some l := by
    rcases get_label_spec L chunks chunk_labels r hlen with ⟨_, h⟩ | ⟨_, l, _, _, _, h⟩
    · exact ⟨_, h⟩
    · exact ⟨l, h⟩
  rw [hl, get_label_eq_some_iff L chunks2 chunk_labels2 hlen2 hnodup2, hperm.mem_iff,
    hc.mem_iff]
  exact (get_label_eq_some_iff L chunks chunk_labels hlen hnodup r l).mp hl

theorem train_id_push_congr {α : Type} (L : NerLabels) (extract : Span → α)
    (chunks chunks2 : List Span) (chunk_labels chunk_labels2 : List Nat)
    (h : ∀ r : Span, get_label L chunks2 chunk_labels2 r = get_label L chunks chunk_labels r) :
    ∀ (rs : List Span) (st : List α × List Nat),
      train_id_push L extract chunks2 chunk_labels2 rs st
        = train_id_push L extract chunks chunk_labels rs st := by
  intro rs
  induction rs with
  | nil => intro st; rfl
  | cons r rs ih =>
    intro st
    simp only [train_id_push, h r]
    cases get_label L chunks chunk_labels r with
    | none => rfl
    | some l => exact ih _

/-! ## Order independence of the sample sequence -/

/-- C15: for gold chunks that are pairwise distinct, listing the gold chunks
together with their labels in another order, or the chunks of the segmenter in
another order, leaves the result of the sentence step of `train_id` unchanged: the
appended samples are the features of the distinct spans of `chunks ∪ temp` in
strictly increasing lexicographic `(begin, end)` order, each with the label that
`get_label` gives it. -/
theorem train_id_order_irrelevant {α : Type} (L : NerLabels) (extract : Span → α)
    (chunks chunks2 : List Span) (chunk_labels chunk_labels2 : List Nat)
    (temp temp2 : List Span) (st : List α × List Nat)
    (hlen : chunk_labels.length = chunks.length)
    (hlen2 : chunk_labels2.length = chunks2.length)
    (hnodup : chunks.Nodup)
    (hperm : (chunks2.zip chunk_labels2).Perm (chunks.zip chunk_labels))
    (htemp : temp2.Perm temp) :
    train_id_sentence L extract chunks2 chunk_labels2 temp2 st
      = train_id_sentence L extract chunks chunk_labels temp st ∧
    ∃ (spans : List Span) (lbls : List Nat),
      train_id_sentence L extract chunks chunk_labels temp st
        = some (st.1 ++ spans.map extract, st.2 ++ lbls) ∧
      spans.Pairwise (fun a b => a.1 < b.1 ∨ (a.1 = b.1 ∧ a.2 < b.2)) ∧
      (∀ x : Span, x ∈ spans ↔ x ∈ chunks ∨ x ∈ temp) ∧
      lbls.length = spans.length ∧
      ∀ (t : Nat) (r : Span) (l : Nat), spans[t]? = some r → lbls[t]? = some l →
        get_label L chunks chunk_labels r = some l := by
  have hc := fun r => get_label_perm L chunks chunks2 chunk_labels chunk_labels2 hlen hlen2
    hnodup hperm r
  refine ⟨?_, ?_⟩
  · unfold train_id_sentence
    rw [train_id_ranges_perm chunks chunks2 temp temp2 (hc (0, 0)).1 htemp]
    exact train_id_push_congr L extract chunks chunks2 chunk_labels chunk_labels2
      (fun r => (hc r).2) _ st
  · obtain ⟨lbls, h1, h2, h3⟩ :=
      train_id_push_spec L extract chunks chunk_labels hlen (train_id_ranges chunks temp) st
    refine ⟨train_id_ranges chunks temp, lbls, h1, ?_, mem_train_id_ranges chunks temp,
      h2, h3⟩
    exact (sorted_train_id_ranges chunks temp).imp (fun h => (pair_lt_iff _ _).mp h)

/-- Witness of C15: gold chunks `(5,6)`, `(0,2)` listed in both orders and segmenter
chunks `(3,4)`, `(0,2)` listed in both orders. -/
theorem train_id_order_irrelevant_witness :
    train_id_sentence ⟨0, 1, 2, 3, 4⟩ id [(0, 2), (5, 6)] [0, 1] [(0, 2), (3, 4)] ([], [])
      = train_id_sentence ⟨0, 1, 2, 3, 4⟩ id [(5, 6), (0, 2)] [1, 0] [(3, 4), (0, 2)]
          ([], []) ∧
    ∃ (spans : List Span) (lbls : List Nat),
      train_id_sentence ⟨0, 1, 2, 3, 4⟩ id [(5, 6), (0, 2)] [1, 0] [(3, 4), (0, 2)] ([], [])
        = some (([] : List Span) ++ spans.map id, ([] : List Nat) ++ lbls) ∧
      spans.Pairwise (fun a b => a.1 < b.1 ∨ (a.1 = b.1 ∧ a.2 < b.2)) ∧
      (∀ x : Span, x ∈ spans ↔
        x ∈ [((5 : Nat), (6 : Nat)), (0, 2)] ∨ x ∈ [((3 : Nat), (4 : Nat)), (0, 2)]) ∧
      lbls.length = spans.length ∧
      ∀ (t : Nat) (r : Span) (l : Nat), spans[t]? = some r → lbls[t]? = some l →
        get_label ⟨0, 1, 2, 3, 4⟩ [(5, 6), (0, 2)] [1, 0] r = some l :=
  train_id_order_irrelevant ⟨0, 1, 2, 3, 4⟩ id [(5, 6), (0, 2)] [(0, 2), (5, 6)]
    [1, 0] [0, 1] [(3, 4), (0, 2)] [(0, 2), (3, 4)] ([], []) rfl rfl (by decide)
    (by decide) (by decide)

/-! ## Index safety of the remapping -/

theorem remap_range_in_bounds (toks : List (String × Nat))
    (hmono : (toks.map Prod.snd).Pairwise (fun a b => a ≤ b))
    (hfit : ∀ t ∈ toks, t.2 + t.1.length < ULONG_SIZE)
    (hsize : toks.length < ULONG_SIZE)
    (r : Span) (hr : r.1 < r.2 ∧ r.2 ≤ toks.length) :
    ∃ wi wj : String × Nat, toks[r.1]? = some wi ∧ toks[r.2 - 1]? = some wj ∧
      ulong_sub r.2 1 = r.2 - 1 ∧
      remap_range (toks.map Prod.fst) (toks.map Prod.snd) r
        = some (wi.2, wj.2 + wj.1.length) ∧
      wi.2 ≤ wj.2 ∧
      ulong_sub (wj.2 + wj.1.length) wi.2 = wj.2 + wj.1.length - wi.2 := by
  have hi : r.1 < toks.length := by omega
  have hj : r.2 - 1 < toks.length := by omega
  have hsub : ulong_sub r.2 1 = r.2 - 1 := by
    unfold ulong_sub
    have : r.2 + ULONG_SIZE - 1 = (r.2 - 1) + ULONG_SIZE := by omega
    rw [this, Nat.add_mod_right]
    exact Nat.mod_eq_of_lt (by omega)
  have hf := hfit toks[r.2 - 1] (List.getElem_mem hj)
  have hord : toks[r.1].2 ≤ toks[r.2 - 1].2 := by
    rcases Nat.lt_or_ge r.1 (r.2 - 1) with h | h
    · have := List.pairwise_iff_getElem.mp hmono r.1 (r.2 - 1) (by simpa using hi)
        (by simpa using hj) h
      simpa using this
    · have he : r.1 = r.2 - 1 := by omega
      simp only [he]
      exact Nat.le_refl _
  have hadd : ulong_add toks[r.2 - 1].2 toks[r.2 - 1].1.length
      = toks[r.2 - 1].2 + toks[r.2 - 1].1.length := by
    unfold ulong_add
    exact Nat.mod_eq_of_lt hf
  refine ⟨toks[r.1], toks[r.2 - 1], List.getElem?_eq_getElem hi,
    List.getElem?_eq_getElem hj, hsub, ?_, hord, ?_⟩
  · simp [remap_range, hsub, List.getElem?_map, List.getElem?_eq_getElem hi,
      List.getElem?_eq_getElem hj, hadd]
  · unfold ulong_sub
    have : toks[r.2 - 1].2 + toks[r.2 - 1].1.length + ULONG_SIZE - toks[r.1].2
        = (toks[r.2 - 1].2 + toks[r.2 - 1].1.length - toks[r.1].2) + ULONG_SIZE := by omega
    rw [this, Nat.add_mod_right]
    exact Nat.mod_eq_of_lt (by omega)

/-- C16: when every range returned by the extractor satisfies
`begin < end <= words.size()` and the token offsets are non-decreasing (the tokens
ending below `2^64`, as in any text held in memory), the remapping loop reads
`word_pos[begin]`, `word_pos[end-1]` and `words[end-1]` within bounds, `end-1` does
not wrap, the remapped range has `begin <= end`, and
`mitie_ner_get_detection_length` is the true difference `end - begin`, which is at
least the length of the last token. -/
theorem extract_entities_index_safe (tokenizer : String → List (String × Nat))
    (ner : mitie_named_entity_extractor) (text : String)
    (ranges : List Span) (labels : List Nat)
    (hrun : ner.impl.run ((tokenizer text).map Prod.fst) = some (ranges, labels))
    (hspans : ∀ r ∈ ranges, r.1 < r.2 ∧ r.2 ≤ ((tokenizer text).map Prod.fst).length)
    (hmono : ((tokenizer text).map Prod.snd).Pairwise (fun a b => a ≤ b))
    (hfit : ∀ t ∈ tokenizer text, t.2 + t.1.length < ULONG_SIZE)
    (hsize : (tokenizer text).length < ULONG_SIZE) :
    ∃ dets : mitie_named_entity_detections,
      mitie_extract_entities tokenizer ner text = Ret.object dets ∧
      mitie_ner_get_num_detections dets = ranges.length ∧
      ∀ (idx : Nat) (r : Span), ranges[idx]? = some r →
        ∃ (b p e : Nat) (w : String),
          ((tokenizer text).map Prod.snd)[r.1]? = some b ∧
          ((tokenizer text).map Prod.snd)[r.2 - 1]? = some p ∧
          ((tokenizer text).map Prod.fst)[r.2 - 1]? = some w ∧
          ulong_sub r.2 1 = r.2 - 1 ∧ 0 < r.2 ∧
          dets.impl.ranges[idx]? = some (b, e) ∧ e = p + w.length ∧ b ≤ e ∧
          mitie_ner_get_detection_length dets idx = some (e - b) ∧
          w.length ≤ e - b := by
  have hspans2 : ∀ r ∈ ranges, r.1 < r.2 ∧ r.2 ≤ (tokenizer text).length := by
    intro r hr
    simpa using hspans r hr
  have hmap := remap_ranges_eq_map ((tokenizer text).map Prod.fst)
    ((tokenizer text).map Prod.snd)
    (fun r => (((tokenizer text)[r.1]?.map Prod.snd).getD 0,
               ((tokenizer text)[r.2 - 1]?.map (fun w => w.2 + w.1.length)).getD 0))
    ranges (by
      intro r hr
      obtain ⟨wi, wj, h1, h2, _, h3, _, _⟩ :=
        remap_range_in_bounds (tokenizer text) hmono hfit hsize r (hspans2 r hr)
      simp [h3, h1, h2])
  have hobj : mitie_extract_entities tokenizer ner text =
      Ret.object
        { type := MITIE_NAMED_ENTITY_DETECTIONS
          impl :=
            { ranges := ranges.map (fun r =>
                (((tokenizer text)[r.1]?.map Prod.snd).getD 0,
                 ((tokenizer text)[r.2 - 1]?.map (fun w => w.2 + w.1.length)).getD 0))
              predicted_labels := labels
              tags := ner.impl.tag_name_strings } } := by
    simp only [mitie_extract_entities, tokenize_loop_nil, hrun, hmap]
  refine ⟨_, hobj, by simp [mitie_ner_get_num_detections], ?_⟩
  intro idx r hidx
  obtain ⟨wi, wj, h1, h2, hsub, _, hord, hlen⟩ :=
    remap_range_in_bounds (tokenizer text) hmono hfit hsize r
      (hspans2 r (List.getElem?_mem hidx))
  refine ⟨wi.2, wj.2, wj.2 + wj.1.length, wj.1, ?_, ?_, ?_, hsub,
    by have := hspans2 r (List.getElem?_mem hidx); omega, ?_, rfl, by omega, ?_, by omega⟩
  · simp [List.getElem?_map, h1]
  · simp [List.getElem?_map, h2]
  · simp [List.getElem?_map, h2]
  · simp [List.getElem?_map, hidx, h1, h2]
  · simp [mitie_ner_get_detection_length, List.getElem?_map, hidx, h1, h2, hlen]

/-- Witness of C16: the text `John Smith lives` with the detection `[0, 2)`. -/
theorem extract_entities_index_safe_witness :
    ∃ dets : mitie_named_entity_detections,
      mitie_extract_entities (fun _ => [("John", 0), ("Smith", 5), ("lives", 11)])
        ⟨MITIE_NAMED_ENTITY_EXTRACTOR, ⟨["PERSON"], fun _ => some ([(0, 2)], [0])⟩⟩
        "John Smith lives" = Ret.object dets ∧
      mitie_ner_get_num_detections dets = [((0 : Nat), (2 : Nat))].length ∧
      ∀ (idx : Nat) (r : Span), [((0 : Nat), (2 : Nat))][idx]? = some r →
        ∃ (b p e : Nat) (w : String),
          ([("John", 0), ("Smith", 5), ("lives", 11)].map Prod.snd)[r.1]? = some b ∧
          ([("John", 0), ("Smith", 5), ("lives", 11)].map Prod.snd)[r.2 - 1]? = some p ∧
          ([("John", 0), ("Smith", 5), ("lives", 11)].map Prod.fst)[r.2 - 1]? = some w ∧
          ulong_sub r.2 1 = r.2 - 1 ∧ 0 < r.2 ∧
          dets.impl.ranges[idx]? = some (b, e) ∧ e = p + w.length ∧ b ≤ e ∧
          mitie_ner_get_detection_length dets idx = some (e - b) ∧
          w.length ≤ e - b :=
  extract_entities_index_safe (fun _ => [("John", 0), ("Smith", 5), ("lives", 11)])
    ⟨MITIE_NAMED_ENTITY_EXTRACTOR, ⟨["PERSON"], fun _ => some ([(0, 2)], [0])⟩⟩
    "John Smith lives" [(0, 2)] [0] rfl (by decide) (by decide) (by decide) (by decide)

/-! ## Validation of the numeric options -/

theorem main_rejects_C (cmd : CommandLine) (v : ℚ) (hC : cmd.C = some v)
    (hv : v ≤ 0) : main cmd = MainResult.rejected := by
  have h1 : ¬ ((1 : ℚ) / 1000000000 ≤ v) := by
    intro h
    have : (0 : ℚ) < 1 / 1000000000 := by norm_num
    linarith
  have hc : check_option_arg_range cmd.C (1 / 1000000000) 1000000000 = false := by
    rw [hC]
    simp only [check_option_arg_range, Bool.and_eq_false_imp, decide_eq_true_eq]
    intro h
    exact absurd h h1
  unfold main
  rw [if_pos (by rw [hc]; rfl)]

theorem main_rejects_threads (cmd : CommandLine) (v : Int) (ht : cmd.threads = some v)
    (hv : v < 1) : main cmd = MainResult.rejected := by
  have hc : check_option_arg_range_int cmd.threads 1 64 = false := by
    rw [ht]
    simp only [check_option_arg_range_int, Bool.and_eq_false_imp, decide_eq_true_eq]
    intro h
    omega
  unfold main
  by_cases h0 : (!check_option_arg_range cmd.C (1 / 1000000000) 1000000000) = true
  · rw [if_pos h0]
  · rw [if_neg h0, if_pos (by rw [hc]; rfl)]

theorem main_rejects_cache_size (cmd : CommandLine) (v : Int)
    (ht : cmd.cache_size = some v) (hv : v < 0) : main cmd = MainResult.rejected := by
  have hc : check_option_arg_range_int cmd.cache_size 0 500 = false := by
    rw [ht]
    simp only [check_option_arg_range_int, Bool.and_eq_false_imp, decide_eq_true_eq]
    intro h
    omega
  unfold main
  by_cases h0 : (!check_option_arg_range cmd.C (1 / 1000000000) 1000000000) = true
  · rw [if_pos h0]
  · rw [if_neg h0]
    by_cases h1 : (!check_option_arg_range_int cmd.threads 1 64) = true
    · rw [if_pos h1]
    · rw [if_neg h1, if_pos (by rw [hc]; rfl)]

/-- C12, the defect: `main` has range checks for `C`, `threads` and `cache-size`
but none for `eps`; with `--train-chunker --eps e` it enters `train_chunker`
whatever the number `e` is, negative or zero included, while the same command
line with `--C -1` added is rejected. -/
theorem main_enters_training_with_any_eps :
    (∀ e : ℚ, main (train_chunker_with_eps e) = MainResult.entered Command.train_chunker) ∧
    main (train_chunker_with_eps (-1)) = MainResult.entered Command.train_chunker ∧
    main (train_chunker_with_eps 0) = MainResult.entered Command.train_chunker ∧
    main { train_chunker_with_eps (-1) with C := some (-1) } = MainResult.rejected := by
  have h : ∀ e : ℚ,
      main (train_chunker_with_eps e) = MainResult.entered Command.train_chunker :=
    fun _ => rfl
  exact ⟨h, h _, h _, main_rejects_C _ (-1) rfl (by norm_num)⟩

end NerConll
